import Mathlib

/-!
Verification of the similarity-scoring and clustering core of the
Assignment-Plagiarism-Checker repository.

JavaScript strings are modelled as lists of UTF-16 code units (`List Nat`);
`String.charCodeAt i` becomes `List.getD · i 0` (the code only reads indices
that are in range).  JavaScript numbers are modelled as exact arithmetic:
`Nat`/`Int` where all intermediate values are integers, and `ℚ` for the
similarity scores (every score the code computes is a ratio of small
integers, exactly representable).  Source files embedded here:
`src/utils/textProcessing.ts`, `src/utils/similarityComputation.ts`,
`src/utils/clustering.ts`.
-/

namespace Plag

/-- A JS string as its sequence of UTF-16 code units. -/
abbrev JStr := List Nat

/-- Code units of a Lean string literal, for concrete test inputs. -/
def str (s : String) : JStr := s.toList.map Char.toNat

/-- `s.charCodeAt i` for an in-range index (the embedded code never reads
out-of-range indices). -/
def charCodeAt (s : JStr) (i : Nat) : Nat := s.getD i 0

/-- `s.substring(a, b)` for `a ≤ b` (the only way the code calls it):
the code units at positions `[a, b)`, with both ends clamped to the
string length. -/
def jsSubstring (s : JStr) (a b : Nat) : JStr := (s.take b).drop a

/-- The ASCII characters matched by the `\s` regex class (the repository
only ever feeds it ASCII text; the Unicode space characters that `\s`
additionally matches are not modelled). -/
def isWs (c : Nat) : Bool :=
  c = 32 || c = 9 || c = 10 || c = 13 || c = 12 || c = 11

mutual

/-- `String.prototype.split(/\s+/)`, state "inside the current field":
`cur` holds the (reversed) code units of the field read so far. -/
def splitWsGo : JStr → JStr → List JStr
  | [], cur => [cur.reverse]
  | c :: rest, cur =>
    if isWs c then cur.reverse :: splitWsSkip rest
    else splitWsGo rest (c :: cur)

/-- `split(/\s+/)`, state "inside a whitespace separator run". -/
def splitWsSkip : JStr → List JStr
  | [] => [[]]
  | c :: rest => if isWs c then splitWsSkip rest else splitWsGo rest [c]

end

/-- `text.split(/\s+/)` (JS semantics: greedy separator runs; a leading or
trailing separator contributes an empty field; the empty string splits to
`[""]`). -/
def splitWs (s : JStr) : List JStr := splitWsGo s []

example : splitWs (str "") = [str ""] := by decide
example : splitWs (str "a b") = [str "a", str "b"] := by decide
example : splitWs (str " a  b ") = [str "", str "a", str "b", str ""] := by decide
example : splitWs (str " ") = [str "", str ""] := by decide

/-- `Array.prototype.join(' ')`. -/
def joinSp (ws : List JStr) : JStr := List.intercalate (str " ") ws

/-- `createShingles` (src/utils/textProcessing.ts): split on `/\s+/`, then
push `words.slice(i, i + k).join(' ')` for every `0 ≤ i ≤ words.length - k`
(the loop body runs `words.length - k + 1` times, or never when
`words.length < k`). -/
def createShingles (text : JStr) (k : Nat) : List JStr :=
  let words := splitWs text
  (List.range (words.length + 1 - k)).map fun i =>
    joinSp ((words.drop i).take k)

example : createShingles (str "a b c d") 3 = [str "a b c", str "b c d"] := by decide
example : createShingles (str "a b") 3 = [] := by decide
example : createShingles (str "") 1 = [str ""] := by decide

/-- `editDistance` (src/utils/textProcessing.ts): the DP table cell
`dp[i][j]`, written as a recurrence (the 2-D array is its memoization).
`dp[i][0] = i`, `dp[0][j] = j`, and otherwise the code's
`if (str1[i-1] === str2[j-1]) dp[i-1][j-1] else 1 + min(deletion,
insertion, substitution)`. -/
def edAux (s1 s2 : JStr) : Nat → Nat → Nat
  | 0, j => j
  | i + 1, 0 => i + 1
  | i + 1, j + 1 =>
    if charCodeAt s1 i = charCodeAt s2 j then edAux s1 s2 i j
    else 1 + min (edAux s1 s2 i (j + 1)) (min (edAux s1 s2 (i + 1) j) (edAux s1 s2 i j))
termination_by i j => (i, j)

/-- `editDistance(str1, str2)` returns `dp[m][n]`. -/
def editDistance (s1 s2 : JStr) : Nat := edAux s1 s2 s1.length s2.length

example : editDistance (str "ab") (str "b") = 1 := by
  simp [editDistance, edAux, str, charCodeAt]

/-- `longestCommonSubstring`'s DP cell: length of the longest common
suffix of `s1[0..i)` and `s2[0..j)` (`dp[i][j]` in the code; cells the
code never writes stay at the array's initial `0`). -/
def lcsuf (s1 s2 : JStr) : Nat → Nat → Nat
  | 0, _ => 0
  | _ + 1, 0 => 0
  | i + 1, j + 1 =>
    if charCodeAt s1 i = charCodeAt s2 j then lcsuf s1 s2 i j + 1 else 0

/-- The row-major order in which the code's nested `for i / for j` loops
visit the DP cells (1-based, as in the code). -/
def lcsCells (m n : Nat) : List (Nat × Nat) :=
  (List.range m).flatMap fun i => (List.range n).map fun j => (i + 1, j + 1)

/-- One step of the code's `maxLength` / `endIndex` tracking: inside the
equal-characters branch, when `dp[i][j] > maxLength`, record
`(dp[i][j], i)`. -/
def lcsStep (s1 s2 : JStr) (st : Nat × Nat) (c : Nat × Nat) : Nat × Nat :=
  if charCodeAt s1 (c.1 - 1) = charCodeAt s2 (c.2 - 1) ∧ st.1 < lcsuf s1 s2 c.1 c.2 then
    (lcsuf s1 s2 c.1 c.2, c.1)
  else st

/-- The `(maxLength, endIndex)` pair after the double loop. -/
def lcsScan (s1 s2 : JStr) : Nat × Nat :=
  (lcsCells s1.length s2.length).foldl (lcsStep s1 s2) (0, 0)

/-- `longestCommonSubstring(str1, str2, maxChars)`: truncate both inputs
to `maxChars` code units, run the DP, and return
`s1.substring(endIndex - maxLength, endIndex)`. -/
def longestCommonSubstring (str1 str2 : JStr) (maxChars : Nat) : JStr :=
  let s1 := str1.take maxChars
  let s2 := str2.take maxChars
  let ms := lcsScan s1 s2
  jsSubstring s1 (ms.2 - ms.1) ms.2

example : longestCommonSubstring (str "xabcdy") (str "zzabcdw") 100 = str "abcd" := by decide
example : longestCommonSubstring (str "abc") (str "xyz") 100 = str "" := by decide
example : longestCommonSubstring (str "abcde") (str "cde") 2 = str "" := by decide

/-- `rabinKarpHash(str, prime)` (src/utils/textProcessing.ts) with the
only prime used, 101: `hash = (hash * 256 + str.charCodeAt(i)) % prime`
over the string.  All JS intermediate values here are non-negative
integers below 2^53, so the arithmetic is exact and `%` agrees with
`Int.emod`. -/
def rabinKarpHash (s : JStr) : Int :=
  s.foldl (fun hash (c : Nat) => (hash * 256 + (c : Int)) % 101) 0

/-- `Math.pow(256, m) % 101` as the JS code computes `h`.  For `m ≤ 127`
the power is the exactly representable double `2^(8m)` (below the
overflow threshold `2^1024`) and `%` on doubles is exact, so the result
is the exact integer remainder.  For `m ≥ 128` the power overflows to
`Infinity`, and `Infinity % 101` is `NaN` — modelled as `none`.  (For a
0-length pattern JS would compute the fractional `Math.pow(256, -1)`;
that case is exercised by no claim and modelled as exponent 0 via `Nat`
subtraction.) -/
def jsPow256Mod101 (m : Nat) : Option Int :=
  if m ≤ 127 then some ((256 ^ m : Int) % 101) else none

/-- One rolling-hash update of `rabinKarpSearch`:
`(base * (textHash - text.charCodeAt(i) * h) + text.charCodeAt(i + m)) %
prime`, where JS `%` truncates (`Int.tmod`), followed by the code's
`if (textHash < 0) textHash += prime` fix-up.  While `h` and `textHash`
are genuine numbers every intermediate value is an integer below `2^53`,
so the arithmetic is exact; once either of them is `NaN` the result is
`NaN` again (`x - c * NaN` and `NaN % 101` are `NaN`, and the
`textHash < 0` test is false for `NaN`). -/
def rollHash (t : JStr) (h : Option Int) (m : Nat) (th : Option Int) (i : Nat) :
    Option Int :=
  match th, h with
  | some th, some hv =>
    let x := (256 * (th - (charCodeAt t i : Int) * hv) +
      (charCodeAt t (i + m) : Int)).tmod 101
    some (if x < 0 then x + 101 else x)
  | _, _ => none

/-- The `for i in 0..n-m` loop of `rabinKarpSearch`: compare hashes
(`NaN` compares unequal to everything, so a `NaN` text hash never
matches), on a hash match confirm with
`text.substring(i, i + m) === pattern`, then roll the hash while
`i < n - m`.  `steps` counts the remaining iterations (`n - m + 1` at
entry). -/
def rkLoop (t p : JStr) (m : Nat) (ph : Int) (h : Option Int) :
    Nat → Nat → Option Int → List Nat
  | 0, _, _ => []
  | steps + 1, i, th =>
    (if some ph = th then (if jsSubstring t i (i + m) = p then [i] else []) else []) ++
      rkLoop t p m ph h steps (i + 1)
        (if i < t.length - m then rollHash t h m th i else th)

/-- `rabinKarpSearch(text, pattern)`: empty when the pattern is longer
than the text; otherwise the loop above, seeded with the pattern hash,
the hash of the first window (both exact: their intermediate values stay
below `2^53`) and `h = Math.pow(256, m-1) % 101`, which is the exact
remainder for pattern lengths `m ≤ 128` and `NaN` beyond (the power
overflows to `Infinity`). -/
def rabinKarpSearch (t p : JStr) : List Nat :=
  if p.length > t.length then []
  else
    rkLoop t p p.length (rabinKarpHash p) (jsPow256Mod101 (p.length - 1))
      (t.length - p.length + 1) 0 (some (rabinKarpHash (jsSubstring t 0 p.length)))

example : rabinKarpSearch (str "abcabcab") (str "abc") = [0, 3] := by decide
example : rabinKarpSearch (str "aaaa") (str "aa") = [0, 1, 2] := by decide
example : rabinKarpSearch (str "ab") (str "abc") = [] := by decide
set_option maxRecDepth 8000 in
example :
    rabinKarpSearch (List.replicate 130 97) (List.replicate 129 97) = [0] := by
  decide

/-- A document as consumed by `computeAllSimilarities`. -/
structure Document where
  id : JStr
  name : JStr
  content : JStr
deriving DecidableEq

instance : Inhabited Document := ⟨⟨[], [], []⟩⟩

/-- The `SimilarityResult` record pushed by `computeAllSimilarities`
(src/types/plagiarism.ts; the numeric fields are JS numbers, modelled
exactly in `ℚ`). -/
structure SimilarityResult where
  doc1Id : JStr
  doc2Id : JStr
  doc1Name : JStr
  doc2Name : JStr
  similarity : ℚ
  matchedSections : List JStr
  rawMatchCount : Nat
  avgWords : Nat
  matchMetric : ℚ
  compositeScore : ℚ
deriving DecidableEq

/-- `jaccardSimilarity` (src/utils/similarityComputation.ts): sizes of the
intersection and union of the two shingle sets; `union.size === 0 ? 0 :
intersection.size / union.size`. -/
def jaccardSimilarity (shingles1 shingles2 : List JStr) : ℚ :=
  let interCard := (shingles1.dedup.filter (fun x => x ∈ shingles2)).length
  let unionCard := ((shingles1 ++ shingles2).dedup).length
  if unionCard = 0 then 0 else (interCard : ℚ) / unionCard

/-- `d.content.split(/\s+/).filter(Boolean).length` — the per-document
word count used by `computeAllSimilarities` (empty fields removed). -/
def wordCount (content : JStr) : Nat :=
  ((splitWs content).filter (fun w => w ≠ [])).length

/-- The body of `computeAllSimilarities`' double loop for one pair of
documents (the pushed `SimilarityResult`). -/
def pairResult (d1 d2 : Document) : SimilarityResult :=
  let s1 := createShingles d1.content 3
  let s2 := createShingles d2.content 3
  let jaccardScore := jaccardSimilarity s1 s2
  let commonCount := (s1.dedup.filter (fun sh => sh ∈ s2)).length
  let avgWords := max 1 ((wordCount d1.content + wordCount d2.content) / 2)
  let matchMetric : ℚ := (commonCount : ℚ) / (avgWords : ℚ) * 100
  let compositeScore : ℚ :=
    if (3 : ℚ) / 20 < jaccardScore then
      let sample1 := jsSubstring d1.content 0 500
      let sample2 := jsSubstring d2.content 0 500
      let maxLen := max sample1.length sample2.length
      let editDist := editDistance sample1 sample2
      let editScore : ℚ := if maxLen = 0 then 0 else 1 - (editDist : ℚ) / (maxLen : ℚ)
      let lcs := longestCommonSubstring d1.content d2.content 800
      let denom := min d1.content.length (min d2.content.length 800)
      let lcsScore : ℚ := if denom = 0 then 0 else (lcs.length : ℚ) / (denom : ℚ)
      jaccardScore * (1 / 2) + editScore * (3 / 10) + lcsScore * (1 / 5)
    else jaccardScore
  let matchedSections : List JStr :=
    if (5 : ℚ) ≤ matchMetric then
      let lcsVerbose := longestCommonSubstring d1.content d2.content 2000
      if 50 < lcsVerbose.length then [jsSubstring lcsVerbose 0 200 ++ str "..."] else []
    else []
  { doc1Id := d1.id
    doc2Id := d2.id
    doc1Name := d1.name
    doc2Name := d2.name
    similarity := matchMetric
    matchedSections := matchedSections
    rawMatchCount := commonCount
    avgWords := avgWords
    matchMetric := matchMetric
    compositeScore := compositeScore * 100 }

/-- `computeAllSimilarities(documents)`: one result per pair `i < j`,
outer loop over `i`, inner over `j > i`. -/
def computeAllSimilarities (documents : List Document) : List SimilarityResult :=
  (List.range documents.length).flatMap fun i =>
    ((List.range documents.length).drop (i + 1)).map fun j =>
      pairResult (documents.getD i default) (documents.getD j default)

example :
    (computeAllSimilarities
      [⟨str "1", str "d1", str "the cat sat"⟩,
       ⟨str "2", str "d2", str "the cat sat"⟩]).map
      (fun r => (r.rawMatchCount, r.avgWords)) =
      [(1, 3)] := by decide

/-- A cluster record (src/types/plagiarism.ts). -/
structure Cluster where
  id : Nat
  documents : List JStr
  avgSimilarity : ℚ
deriving DecidableEq

/-- The adjacency-list graph of src/utils/clustering.ts: insertion-ordered
vertex list (the `Map` keys) and a neighbor list per vertex (the `Set`
values, insertion-ordered). -/
structure JsGraph where
  verts : List JStr
  adj : JStr → List JStr

def emptyGraph : JsGraph := ⟨[], fun _ => []⟩

/-- `addVertex`: insert the key with an empty neighbor set unless
present. -/
def addVertex (g : JsGraph) (v : JStr) : JsGraph :=
  if v ∈ g.verts then g
  else ⟨g.verts ++ [v], fun u => if u = v then [] else g.adj u⟩

/-- `Set.add` on an insertion-ordered set. -/
def addNeighbor (l : List JStr) (u : JStr) : List JStr :=
  if u ∈ l then l else l ++ [u]

/-- `addEdge`: ensure both vertices, then add each endpoint to the
other's neighbor set. -/
def addEdge (g : JsGraph) (v1 v2 : JStr) : JsGraph :=
  let g2 := addVertex (addVertex g v1) v2
  let g3 : JsGraph :=
    ⟨g2.verts, fun u => if u = v1 then addNeighbor (g2.adj v1) v2 else g2.adj u⟩
  ⟨g3.verts, fun u => if u = v2 then addNeighbor (g3.adj v2) v1 else g3.adj u⟩

/-- The graph `createClusters` builds: every document id as a vertex,
an (undirected) edge for every similarity at or above the threshold. -/
def buildGraph (documents : List Document) (similarities : List SimilarityResult)
    (threshold : ℚ) : JsGraph :=
  let g0 := documents.foldl (fun g d => addVertex g d.id) emptyGraph
  similarities.foldl
    (fun g sim => if threshold ≤ sim.similarity then addEdge g sim.doc1Id sim.doc2Id else g)
    g0

/-- The `for (neighbor of neighbors) if (!visited.has(neighbor))
dfs(neighbor)` loop, parameterized by the recursive call. -/
def dfsListAux (dfs : JStr → List JStr × List JStr → List JStr × List JStr) :
    List JStr → List JStr × List JStr → List JStr × List JStr
  | [], s => s
  | u :: us, s => dfsListAux dfs us (if u ∈ s.1 then s else dfs u s)

/-- The recursive `dfs(vertex, component)`: mark visited, push onto the
component, then visit each unvisited neighbor.  `fuel` bounds the
recursion depth; it never runs out when it exceeds the number of
unvisited vertices (see the closure lemmas below). -/
def dfsVisit (g : JsGraph) : Nat → JStr → List JStr × List JStr → List JStr × List JStr
  | 0, _, s => s
  | fuel + 1, v, s => dfsListAux (dfsVisit g fuel) (g.adj v) (v :: s.1, s.2 ++ [v])

/-- The outer loop of `findConnectedComponents`: start a DFS at each
unvisited vertex, in vertex insertion order. -/
def ccGo (g : JsGraph) : List JStr → List JStr → List (List JStr)
  | [], _ => []
  | v :: vs, visited =>
    if v ∈ visited then ccGo g vs visited
    else
      let s := dfsVisit g (g.verts.length + 1) v (visited, [])
      s.2 :: ccGo g vs s.1

def findConnectedComponents (g : JsGraph) : List (List JStr) :=
  ccGo g g.verts []

/-- `createClusters(documents, similarities, threshold)`: connected
components of the threshold graph, keeping only components of size ≥ 2,
with dense ids in discovery order and the mean similarity over
intra-component pairs. -/
def createClusters (documents : List Document)
    (similarities : List SimilarityResult) (threshold : ℚ) : List Cluster :=
  let graph := buildGraph documents similarities threshold
  let components := findConnectedComponents graph
  ((components.filter (fun comp => 1 < comp.length)).enum).map fun p =>
    let comp := p.2
    let clusterSims := similarities.filter
      (fun sim => sim.doc1Id ∈ comp ∧ sim.doc2Id ∈ comp)
    let avgSim : ℚ :=
      if 0 < clusterSims.length then
        (clusterSims.foldl (fun sum s => sum + s.similarity) 0) / (clusterSims.length : ℚ)
      else 0
    ⟨p.1, comp, avgSim⟩

/-- A similarity record carrying only what clustering reads. -/
def mkSim (a b : JStr) (v : ℚ) : SimilarityResult :=
  ⟨a, b, a, b, v, [], 0, 0, v, 0⟩

example :
    ((createClusters
        [⟨str "a", str "a", str ""⟩, ⟨str "b", str "b", str ""⟩,
         ⟨str "c", str "c", str ""⟩, ⟨str "d", str "d", str ""⟩]
        [mkSim (str "a") (str "b") 90, mkSim (str "b") (str "c") 50,
         mkSim (str "c") (str "d") 90]
        40).map (fun c => (c.id, c.documents))) =
      [(0, [str "a", str "b", str "c", str "d"])] := by decide

example :
    ((createClusters
        [⟨str "a", str "a", str ""⟩, ⟨str "b", str "b", str ""⟩,
         ⟨str "c", str "c", str ""⟩, ⟨str "d", str "d", str ""⟩]
        [mkSim (str "a") (str "b") 90, mkSim (str "b") (str "c") 50,
         mkSim (str "c") (str "d") 90]
        60).map (fun c => (c.id, c.documents))) =
      [(0, [str "a", str "b"]), (1, [str "c", str "d"])] := by decide

/-- Four chained documents used to exercise clustering at two
thresholds: a–b and c–d are linked at 90, b–c at 50. -/
def docsW : List Document :=
  [⟨str "a", str "a", str ""⟩, ⟨str "b", str "b", str ""⟩,
   ⟨str "c", str "c", str ""⟩, ⟨str "d", str "d", str ""⟩]

def simsW : List SimilarityResult :=
  [mkSim (str "a") (str "b") 90, mkSim (str "b") (str "c") 50,
   mkSim (str "c") (str "d") 90]

/-- Spec-side composite rule (§4.3 step 6, for comparison with the
emitted field): defaults to the Jaccard score; when that score exceeds
0.15, the weighted blend `0.5×Jaccard + 0.3×(1 − normalized edit
distance on the first 500 characters) + 0.2×(LCS length with an
800-character cap / min(len1, len2, 800))`. -/
def compositeSpec (d1 d2 : Document) : ℚ :=
  let s1 := createShingles d1.content 3
  let s2 := createShingles d2.content 3
  let jaccardScore := jaccardSimilarity s1 s2
  if (3 : ℚ) / 20 < jaccardScore then
    let sample1 := jsSubstring d1.content 0 500
    let sample2 := jsSubstring d2.content 0 500
    let maxLen := max sample1.length sample2.length
    let editDist := editDistance sample1 sample2
    let editScore : ℚ := if maxLen = 0 then 0 else 1 - (editDist : ℚ) / (maxLen : ℚ)
    let lcs := longestCommonSubstring d1.content d2.content 800
    let denom := min d1.content.length (min d2.content.length 800)
    let lcsScore : ℚ := if denom = 0 then 0 else (lcs.length : ℚ) / (denom : ℚ)
    jaccardScore * (1 / 2) + editScore * (3 / 10) + lcsScore * (1 / 5)
  else jaccardScore

/-- The number of distinct shingles the two documents share, as counted
by the code. -/
def commonCount (d1 d2 : Document) : Nat :=
  ((createShingles d1.content 3).dedup.filter
    (fun sh => sh ∈ createShingles d2.content 3)).length

/-- `Math.max(1, Math.floor((wordCounts[i] + wordCounts[j]) / 2))`. -/
def avgWords (d1 d2 : Document) : Nat :=
  max 1 ((wordCount d1.content + wordCount d2.content) / 2)

/-- Spec-side sliding window (for comparison with `createShingles`): all
contiguous `k`-element windows of a word list, left to right; empty when
fewer than `k` words remain. -/
def windowsSpec (k : Nat) : List JStr → List JStr
  | [] => []
  | w :: rest =>
    if rest.length + 1 < k then []
    else joinSp ((w :: rest).take k) :: windowsSpec k rest

/-- Levenshtein distance as a structural recursion on the two strings
(head-based).  `edAux s1 s2 i j` equals `edRec` on the reversed prefixes
`s1[0..i)`, `s2[0..j)` (`edAux_eq_edRec` below); all metric reasoning is
done on this form. -/
def edRec : JStr → JStr → Nat
  | [], t => t.length
  | _ :: s, [] => s.length + 1
  | a :: s, b :: t =>
    if a = b then edRec s t
    else 1 + min (edRec s (b :: t)) (min (edRec (a :: s) t) (edRec s t))
termination_by s t => s.length + t.length
decreasing_by all_goals simp <;> omega

theorem edRec_nil_right (s : JStr) : edRec s [] = s.length := by
  cases s <;> simp [edRec]

theorem take_succ_reverse (s : JStr) (i : Nat) (h : i < s.length) :
    (s.take (i + 1)).reverse = s.getD i 0 :: (s.take i).reverse := by
  rw [List.take_succ, List.getElem?_eq_getElem h]
  simp [List.getD_eq_getElem?_getD, List.getElem?_eq_getElem h]

theorem edAux_eq_edRec (s1 s2 : JStr) :
    ∀ N i j, i + j ≤ N → i ≤ s1.length → j ≤ s2.length →
      edAux s1 s2 i j = edRec ((s1.take i).reverse) ((s2.take j).reverse) := by
  intro N
  induction N with
  | zero =>
    intro i j hij _ _
    have hi : i = 0 := by omega
    have hj : j = 0 := by omega
    subst hi; subst hj
    simp [edAux, edRec]
  | succ N ih =>
    intro i j hij hi hj
    match i, j with
    | 0, j =>
      simp [edAux, edRec, List.length_take, Nat.min_eq_left hj]
    | i + 1, 0 =>
      simp [edAux, edRec_nil_right, List.length_take,
        Nat.min_eq_left hi]
    | i + 1, j + 1 =>
      have hi' : i < s1.length := by omega
      have hj' : j < s2.length := by omega
      rw [take_succ_reverse s1 i hi', take_succ_reverse s2 j hj']
      show edAux s1 s2 (i + 1) (j + 1) = _
      rw [edAux]
      rw [edRec]
      rcases eq_or_ne (charCodeAt s1 i) (charCodeAt s2 j) with h | h
      · have h' : s1.getD i 0 = s2.getD j 0 := h
        rw [if_pos h, if_pos h']
        exact ih i j (by omega) (by omega) (by omega)
      · have h' : ¬ s1.getD i 0 = s2.getD j 0 := h
        rw [if_neg h, if_neg h']
        rw [ih i (j + 1) (by omega) (by omega) (by omega),
          ih (i + 1) j (by omega) (by omega) (by omega),
          ih i j (by omega) (by omega) (by omega),
          take_succ_reverse s1 i hi', take_succ_reverse s2 j hj']

theorem editDistance_eq_edRec (s1 s2 : JStr) :
    editDistance s1 s2 = edRec s1.reverse s2.reverse := by
  have := edAux_eq_edRec s1 s2 (s1.length + s2.length) s1.length s2.length
    le_rfl le_rfl le_rfl
  simpa [editDistance, List.take_length] using this

theorem edRec_self (s : JStr) : edRec s s = 0 := by
  induction s with
  | nil => simp [edRec]
  | cons a s ih => simp [edRec, ih]

theorem edRec_symm (a b : JStr) : edRec a b = edRec b a := by
  induction a generalizing b with
  | nil => cases b <;> simp [edRec]
  | cons x a ih =>
    induction b with
    | nil => simp [edRec]
    | cons y b ihb =>
      rcases eq_or_ne x y with h | h
      · subst h
        simp [edRec, ih b]
      · rw [edRec, edRec, if_neg h, if_neg (Ne.symm h),
          ih (y :: b), ih b, ihb]
        omega

/-- An ordered edit script transforming one string into another: `Edits a
b n` means `a` can be turned into `b` with `n` single-character
insertions, deletions and substitutions (applied left to right). -/
inductive Edits : JStr → JStr → Nat → Prop
  | nil : Edits [] [] 0
  | keep (x : Nat) (a b : JStr) (n : Nat) : Edits a b n → Edits (x :: a) (x :: b) n
  | subst (x y : Nat) (a b : JStr) (n : Nat) : Edits a b n → Edits (x :: a) (y :: b) (n + 1)
  | ins (y : Nat) (a b : JStr) (n : Nat) : Edits a b n → Edits a (y :: b) (n + 1)
  | del (x : Nat) (a b : JStr) (n : Nat) : Edits a b n → Edits (x :: a) b (n + 1)

theorem edits_nil_left (b : JStr) : Edits [] b b.length := by
  induction b with
  | nil => exact Edits.nil
  | cons y b ih => exact Edits.ins y _ _ _ ih

theorem edits_nil_right (a : JStr) : Edits a [] a.length := by
  induction a with
  | nil => exact Edits.nil
  | cons x a ih => exact Edits.del x _ _ _ ih

/-- An edit script of length exactly `edRec a b` exists. -/
theorem edits_of_edRec (a b : JStr) : Edits a b (edRec a b) := by
  induction a generalizing b with
  | nil => simpa [edRec] using edits_nil_left b
  | cons x a ih =>
    induction b with
    | nil => simpa [edRec_nil_right] using edits_nil_right (x :: a)
    | cons y b ihb =>
      rcases eq_or_ne x y with h | h
      · subst h
        simpa [edRec] using Edits.keep x _ _ _ (ih b)
      · rw [edRec, if_neg h]
        have h1 := ih (y :: b)
        have h2 := ihb
        have h3 := ih b
        rcases Nat.le_total (edRec a (y :: b))
            (min (edRec (x :: a) b) (edRec a b)) with hc | hc
        · have he : 1 + min (edRec a (y :: b)) (min (edRec (x :: a) b) (edRec a b)) =
              edRec a (y :: b) + 1 := by omega
          rw [he]
          exact Edits.del x _ _ _ h1
        · rcases Nat.le_total (edRec (x :: a) b) (edRec a b) with hd | hd
          · have he : 1 + min (edRec a (y :: b)) (min (edRec (x :: a) b) (edRec a b)) =
                edRec (x :: a) b + 1 := by omega
            rw [he]
            exact Edits.ins y _ _ _ h2
          · have he : 1 + min (edRec a (y :: b)) (min (edRec (x :: a) b) (edRec a b)) =
                edRec a b + 1 := by omega
            rw [he]
            exact Edits.subst x y _ _ _ h3

/-- Dropping or adding a single leading character changes `edRec` by at
most one (both directions). -/
theorem edRec_cons_step :
    ∀ N a b, List.length a + List.length b ≤ N → ∀ x : Nat,
      edRec a b ≤ 1 + edRec (x :: a) b ∧ edRec (x :: a) b ≤ 1 + edRec a b := by
  intro N
  induction N with
  | zero =>
    intro a b hab x
    have ha : a = [] := by
      cases a <;> simp_all
    have hb : b = [] := by
      cases b <;> simp_all
    subst ha; subst hb
    simp [edRec]
  | succ N ih =>
    intro a b hab x
    cases b with
    | nil =>
      rw [edRec_nil_right, edRec_nil_right]
      simp only [List.length_cons]
      omega
    | cons y b' =>
      constructor
      · -- edRec a (y :: b') ≤ 1 + edRec (x :: a) (y :: b')
        rcases eq_or_ne x y with h | h
        · subst h
          rw [edRec, if_pos rfl]
          -- goal : edRec a (x :: b') ≤ 1 + edRec a b'
          have := (ih b' a (by simp at hab ⊢; omega) x).2
          calc edRec a (x :: b') = edRec (x :: b') a := edRec_symm _ _
            _ ≤ 1 + edRec b' a := this
            _ = 1 + edRec a b' := by rw [edRec_symm]
        · rw [edRec, if_neg h]
          have h1 : edRec a (y :: b') ≤ 1 + edRec a b' := by
            have := (ih b' a (by simp at hab ⊢; omega) y).2
            calc edRec a (y :: b') = edRec (y :: b') a := edRec_symm _ _
              _ ≤ 1 + edRec b' a := this
              _ = 1 + edRec a b' := by rw [edRec_symm]
          have h2 : edRec a b' ≤ 1 + edRec (x :: a) b' := by
            have hb' : List.length a + List.length b' ≤ N := by
              simp at hab ⊢; omega
            exact (ih a b' hb' x).1
          omega
      · -- edRec (x :: a) (y :: b') ≤ 1 + edRec a (y :: b')
        rcases eq_or_ne x y with h | h
        · subst h
          rw [edRec, if_pos rfl]
          -- goal : edRec a b' ≤ 1 + edRec a (x :: b')
          have := (ih b' a (by simp at hab ⊢; omega) x).1
          calc edRec a b' = edRec b' a := edRec_symm _ _
            _ ≤ 1 + edRec (x :: b') a := this
            _ = 1 + edRec a (x :: b') := by rw [edRec_symm]
        · rw [edRec, if_neg h]
          have : min (edRec a (y :: b')) (min (edRec (x :: a) b') (edRec a b')) ≤
              edRec a (y :: b') := min_le_left _ _
          omega

/-- Any edit script bounds `edRec` from above. -/
theorem edRec_le_of_edits {a b : JStr} {n : Nat} (h : Edits a b n) :
    edRec a b ≤ n := by
  induction h with
  | nil => simp [edRec]
  | keep x a b n h ih =>
    rw [edRec, if_pos rfl]
    exact ih
  | subst x y a b n h ih =>
    rcases eq_or_ne x y with he | he
    · subst he
      rw [edRec, if_pos rfl]
      omega
    · rw [edRec, if_neg he]
      have hm : min (edRec a (y :: b)) (min (edRec (x :: a) b) (edRec a b)) ≤
          edRec a b := le_trans (min_le_right _ _) (min_le_right _ _)
      omega
  | ins y a b n h ih =>
    have step := (edRec_cons_step (List.length b + List.length a)
      b a le_rfl y).2
    have e1 : edRec a (y :: b) = edRec (y :: b) a := edRec_symm _ _
    have e2 : edRec b a = edRec a b := edRec_symm _ _
    omega
  | del x a b n h ih =>
    have step := (edRec_cons_step (List.length a + List.length b)
      a b le_rfl x).2
    omega

/-- Edit scripts compose, with lengths adding. -/
theorem edits_trans :
    ∀ N a b c m n, List.length b + List.length c + m + n ≤ N →
      Edits a b m → Edits b c n → ∃ k, k ≤ m + n ∧ Edits a c k := by
  intro N
  induction N with
  | zero =>
    intro a b c m n h h1 h2
    have hb : b = [] := List.length_eq_zero.mp (by omega)
    have hc : c = [] := List.length_eq_zero.mp (by omega)
    have hm : m = 0 := by omega
    have hn : n = 0 := by omega
    subst hb; subst hc; subst hm; subst hn
    cases h1
    exact ⟨0, le_rfl, Edits.nil⟩
  | succ N ih =>
    intro a b c m n hN h1 h2
    cases h1 with
    | nil =>
      exact ⟨n, by omega, h2⟩
    | keep x a' b' m' h1' =>
      cases h2 with
      | keep x2 b2 c' n2 h2' =>
        obtain ⟨k, hk, hE⟩ := ih a' b' c' m n (by simp at hN ⊢; omega) h1' h2'
        exact ⟨k, by omega, Edits.keep x _ _ _ hE⟩
      | subst x2 z b2 c' n' h2' =>
        obtain ⟨k, hk, hE⟩ := ih a' b' c' m n' (by simp at hN ⊢; omega) h1' h2'
        exact ⟨k + 1, by omega, Edits.subst x z _ _ _ hE⟩
      | ins z b2 c' n' h2' =>
        obtain ⟨k, hk, hE⟩ := ih (x :: a') (x :: b') c' m n'
          (by simp at hN ⊢; omega) (Edits.keep x _ _ _ h1') h2'
        exact ⟨k + 1, by omega, Edits.ins z _ _ _ hE⟩
      | del x2 b2 c2 n' h2' =>
        obtain ⟨k, hk, hE⟩ := ih a' b' c m n' (by simp at hN ⊢; omega) h1' h2'
        exact ⟨k + 1, by omega, Edits.del x _ _ _ hE⟩
    | subst x y a' b' m' h1' =>
      cases h2 with
      | keep x2 b2 c' n2 h2' =>
        obtain ⟨k, hk, hE⟩ := ih a' b' c' m' n (by simp at hN ⊢; omega) h1' h2'
        exact ⟨k + 1, by omega, Edits.subst x y _ _ _ hE⟩
      | subst x2 z b2 c' n' h2' =>
        obtain ⟨k, hk, hE⟩ := ih a' b' c' m' n' (by simp at hN ⊢; omega) h1' h2'
        exact ⟨k + 1, by omega, Edits.subst x z _ _ _ hE⟩
      | ins z b2 c' n' h2' =>
        obtain ⟨k, hk, hE⟩ := ih (x :: a') (y :: b') c' (m' + 1) n'
          (by simp at hN ⊢; omega) (Edits.subst x y _ _ _ h1') h2'
        exact ⟨k + 1, by omega, Edits.ins z _ _ _ hE⟩
      | del x2 b2 c2 n' h2' =>
        obtain ⟨k, hk, hE⟩ := ih a' b' c m' n' (by simp at hN ⊢; omega) h1' h2'
        exact ⟨k + 1, by omega, Edits.del x _ _ _ hE⟩
    | ins y a1 b' m' h1' =>
      cases h2 with
      | keep x2 b2 c' n2 h2' =>
        obtain ⟨k, hk, hE⟩ := ih a b' c' m' n (by simp at hN ⊢; omega) h1' h2'
        exact ⟨k + 1, by omega, Edits.ins y _ _ _ hE⟩
      | subst x2 z b2 c' n' h2' =>
        obtain ⟨k, hk, hE⟩ := ih a b' c' m' n' (by simp at hN ⊢; omega) h1' h2'
        exact ⟨k + 1, by omega, Edits.ins z _ _ _ hE⟩
      | ins z b2 c' n' h2' =>
        obtain ⟨k, hk, hE⟩ := ih a (y :: b') c' (m' + 1) n'
          (by simp at hN ⊢; omega) (Edits.ins y _ _ _ h1') h2'
        exact ⟨k + 1, by omega, Edits.ins z _ _ _ hE⟩
      | del x2 b2 c2 n' h2' =>
        obtain ⟨k, hk, hE⟩ := ih a b' c m' n' (by simp at hN ⊢; omega) h1' h2'
        exact ⟨k, by omega, hE⟩
    | del x a' b1 m' h1' =>
      obtain ⟨k, hk, hE⟩ := ih a' b c m' n (by omega) h1' h2
      exact ⟨k + 1, by omega, Edits.del x _ _ _ hE⟩

/-- Triangle inequality for `edRec`. -/
theorem edRec_triangle (a b c : JStr) :
    edRec a c ≤ edRec a b + edRec b c := by
  obtain ⟨k, hk, hE⟩ := edits_trans
    (List.length b + List.length c + edRec a b + edRec b c) a b c
    (edRec a b) (edRec b c) le_rfl (edits_of_edRec a b) (edits_of_edRec b c)
  exact le_trans (edRec_le_of_edits hE) hk

theorem editDistance_self (s : JStr) : editDistance s s = 0 := by
  rw [editDistance_eq_edRec, edRec_self]

theorem editDistance_symm (a b : JStr) : editDistance a b = editDistance b a := by
  rw [editDistance_eq_edRec, editDistance_eq_edRec, edRec_symm]

theorem editDistance_triangle (a b c : JStr) :
    editDistance a c ≤ editDistance a b + editDistance b c := by
  rw [editDistance_eq_edRec, editDistance_eq_edRec, editDistance_eq_edRec]
  exact edRec_triangle _ _ _

theorem createShingles_eq_windowsSpec (t : JStr) (k : Nat) (hk : 1 ≤ k) :
    createShingles t k = windowsSpec k (splitWs t) := by
  show (List.range ((splitWs t).length + 1 - k)).map _ = _
  generalize splitWs t = ws
  induction ws with
  | nil =>
    have : (0 : Nat) + 1 - k = 0 := by omega
    simp [windowsSpec, this]
  | cons w rest ih =>
    by_cases h : rest.length + 1 < k
    · have : rest.length + 1 + 1 - k = 0 := by omega
      simp [windowsSpec, h, this]
    · have hlen : (w :: rest).length + 1 - k = (rest.length + 1 - k) + 1 := by
        simp only [List.length_cons]; omega
      rw [hlen, List.range_succ_eq_map]
      simp only [windowsSpec, h, if_false, List.map_cons, List.map_map]
      congr 1

theorem charCodeAt_eq_getElem (s : JStr) (i : Nat) (h : i < s.length) :
    charCodeAt s i = s[i] := by
  simp [charCodeAt, List.getD_eq_getElem?_getD, List.getElem?_eq_getElem h]

theorem lcsuf_le_left (s1 s2 : JStr) : ∀ i j, lcsuf s1 s2 i j ≤ i := by
  intro i
  induction i with
  | zero => intro j; simp [lcsuf]
  | succ i ih =>
    intro j
    cases j with
    | zero => simp [lcsuf]
    | succ j =>
      rw [lcsuf]
      split
      · have := ih j; omega
      · omega

theorem lcsuf_le_right (s1 s2 : JStr) : ∀ i j, lcsuf s1 s2 i j ≤ j := by
  intro i
  induction i with
  | zero => intro j; simp [lcsuf]
  | succ i ih =>
    intro j
    cases j with
    | zero => simp [lcsuf]
    | succ j =>
      rw [lcsuf]
      split
      · have := ih j; omega
      · omega

/-- The DP cell really is the length of a common suffix: the last
`lcsuf i j` characters of `s1[0..i)` and of `s2[0..j)` agree. -/
theorem lcsuf_slice (s1 s2 : JStr) : ∀ i j, i ≤ s1.length → j ≤ s2.length →
    (s1.take i).drop (i - lcsuf s1 s2 i j) =
      (s2.take j).drop (j - lcsuf s1 s2 i j) := by
  intro i
  induction i with
  | zero =>
    intro j h1 h2
    simp only [lcsuf, List.take_zero, List.drop_nil]
    refine ((List.drop_eq_nil_of_le ?_)).symm
    simp [List.length_take]
  | succ i ih =>
    intro j h1 h2
    cases j with
    | zero =>
      simp only [lcsuf, List.take_zero, List.drop_nil]
      apply List.drop_eq_nil_of_le
      simp [List.length_take]
    | succ j =>
      rw [lcsuf]
      by_cases h : charCodeAt s1 i = charCodeAt s2 j
      · rw [if_pos h]
        have hL1 := lcsuf_le_left s1 s2 i j
        have hL2 := lcsuf_le_right s1 s2 i j
        have e1 : i + 1 - (lcsuf s1 s2 i j + 1) = i - lcsuf s1 s2 i j := by omega
        have e2 : j + 1 - (lcsuf s1 s2 i j + 1) = j - lcsuf s1 s2 i j := by omega
        have hi : i < s1.length := by omega
        have hj : j < s2.length := by omega
        rw [e1, e2, List.take_succ, List.take_succ,
          List.getElem?_eq_getElem hi, List.getElem?_eq_getElem hj]
        simp only [Option.toList_some]
        rw [List.drop_append_of_le_length (by simp [List.length_take]; omega),
          List.drop_append_of_le_length (by simp [List.length_take]; omega)]
        rw [ih j (by omega) (by omega)]
        rw [charCodeAt_eq_getElem s1 i hi, charCodeAt_eq_getElem s2 j hj] at h
        rw [h]
      · rw [if_neg h]
        simp only [Nat.sub_zero]
        rw [List.drop_eq_nil_of_le (by simp [List.length_take]),
          List.drop_eq_nil_of_le (by simp [List.length_take])]

/-- Invariant carried by the `(maxLength, endIndex)` scan state: the
recorded length never exceeds the recorded end index, the end index is in
range, and the recorded window of `s1` occurs (with some end position
`j`) in `s2`. -/
def LcsInv (s1 s2 : JStr) (st : Nat × Nat) : Prop :=
  st.1 ≤ st.2 ∧ st.2 ≤ s1.length ∧
    ∃ j, st.1 ≤ j ∧ j ≤ s2.length ∧
      (s1.take st.2).drop (st.2 - st.1) = (s2.take j).drop (j - st.1)

theorem mem_lcsCells {m n i j : Nat} (h : (i, j) ∈ lcsCells m n) :
    1 ≤ i ∧ i ≤ m ∧ 1 ≤ j ∧ j ≤ n := by
  simp only [lcsCells, List.mem_flatMap, List.mem_map, List.mem_range] at h
  obtain ⟨i', hi', j', hj', hEq⟩ := h
  obtain ⟨rfl, rfl⟩ : i' + 1 = i ∧ j' + 1 = j := by
    constructor <;> [exact congrArg Prod.fst hEq; exact congrArg Prod.snd hEq]
  omega

theorem lcsStep_inv (s1 s2 : JStr) (st : Nat × Nat) (c : Nat × Nat)
    (hc : c ∈ lcsCells s1.length s2.length) (hst : LcsInv s1 s2 st) :
    LcsInv s1 s2 (lcsStep s1 s2 st c) := by
  obtain ⟨i, j⟩ := c
  obtain ⟨hi1, him, hj1, hjn⟩ := mem_lcsCells hc
  rw [lcsStep]
  split
  · exact ⟨lcsuf_le_left s1 s2 i j, him,
      j, lcsuf_le_right s1 s2 i j, hjn, lcsuf_slice s1 s2 i j him hjn⟩
  · exact hst

theorem lcsScan_inv (s1 s2 : JStr) : LcsInv s1 s2 (lcsScan s1 s2) := by
  refine List.foldlRecOn (lcsCells s1.length s2.length) (lcsStep s1 s2) (0, 0)
    ⟨le_rfl, Nat.zero_le _, 0, le_rfl, Nat.zero_le _, by simp⟩ ?_
  intro st hst c hc
  exact lcsStep_inv s1 s2 st c hc hst

theorem tmod101_lower (a : Int) : -101 < a.tmod 101 := by
  cases a with
  | ofNat m =>
    have := Int.tmod_nonneg (101 : Int) (a := Int.ofNat m) (Int.ofNat_nonneg m)
    omega
  | negSucc m =>
    have he : Int.tmod (Int.negSucc m) 101 = -(((m + 1) % 101 : Nat) : Int) := rfl
    have hlt : (m + 1) % 101 < 101 := Nat.mod_lt _ (by norm_num)
    omega

/-- JS `x % 101` (truncating) followed by the code's negative fix-up
equals mathematical `emod`. -/
theorem tmodFix_eq_emod (a : Int) :
    (if a.tmod 101 < 0 then a.tmod 101 + 101 else a.tmod 101) = a % 101 := by
  have hdef : a.tmod 101 = a - 101 * a.tdiv 101 := Int.tmod_def a 101
  have hub : a.tmod 101 < 101 := Int.tmod_lt_of_pos a (by norm_num)
  have hlb : -101 < a.tmod 101 := tmod101_lower a
  split <;> omega

theorem rabinKarpHash_range (s : JStr) :
    0 ≤ rabinKarpHash s ∧ rabinKarpHash s < 101 := by
  unfold rabinKarpHash
  exact List.foldlRecOn (motive := fun h : Int => 0 ≤ h ∧ h < 101) s
    (fun hash (c : Nat) => (hash * 256 + (c : Int)) % 101) 0
    ⟨le_rfl, by norm_num⟩
    (fun _ _ _ _ => ⟨Int.emod_nonneg _ (by norm_num), Int.emod_lt_of_pos _ (by norm_num)⟩)

theorem rabinKarpHash_append (l : JStr) (c : Nat) :
    rabinKarpHash (l ++ [c]) = (rabinKarpHash l * 256 + (c : Int)) % 101 := by
  simp [rabinKarpHash, List.foldl_append]

/-- Folding the hash step from an arbitrary start value `h0` shifts the
result by `h0 * 256 ^ length`, modulo 101. -/
theorem hash_foldl_modEq (l : JStr) : ∀ h0 : Int,
    l.foldl (fun hash (c : Nat) => (hash * 256 + (c : Int)) % 101) h0 ≡
      h0 * 256 ^ l.length + rabinKarpHash l [ZMOD 101] := by
  induction l with
  | nil =>
    intro h0
    show h0 ≡ h0 * 256 ^ (0 : Nat) + rabinKarpHash [] [ZMOD 101]
    simp [rabinKarpHash]
  | cons c l ih =>
    intro h0
    show List.foldl (fun hash (c : Nat) => (hash * 256 + (c : Int)) % 101)
        ((h0 * 256 + (c : Int)) % 101) l ≡ _ [ZMOD 101]
    have step3 : rabinKarpHash (c :: l) ≡
        (c : Int) * 256 ^ l.length + rabinKarpHash l [ZMOD 101] := by
      have h3 : rabinKarpHash (c :: l) =
          List.foldl (fun hash (c : Nat) => (hash * 256 + (c : Int)) % 101)
            ((0 * 256 + (c : Int)) % 101) l := rfl
      rw [h3]
      calc List.foldl (fun hash (c : Nat) => (hash * 256 + (c : Int)) % 101)
            ((0 * 256 + (c : Int)) % 101) l
          ≡ ((0 * 256 + (c : Int)) % 101) * 256 ^ l.length + rabinKarpHash l
            [ZMOD 101] := ih _
        _ ≡ (0 * 256 + (c : Int)) * 256 ^ l.length + rabinKarpHash l [ZMOD 101] :=
            Int.ModEq.add_right _
              (Int.ModEq.mul_right _ (Int.emod_emod_of_dvd _ dvd_rfl))
        _ = (c : Int) * 256 ^ l.length + rabinKarpHash l := by ring
    calc List.foldl (fun hash (c : Nat) => (hash * 256 + (c : Int)) % 101)
          ((h0 * 256 + (c : Int)) % 101) l
        ≡ ((h0 * 256 + (c : Int)) % 101) * 256 ^ l.length + rabinKarpHash l
          [ZMOD 101] := ih _
      _ ≡ (h0 * 256 + (c : Int)) * 256 ^ l.length + rabinKarpHash l [ZMOD 101] :=
          Int.ModEq.add_right _
            (Int.ModEq.mul_right _ (Int.emod_emod_of_dvd _ dvd_rfl))
      _ = h0 * 256 ^ (c :: l).length +
          ((c : Int) * 256 ^ l.length + rabinKarpHash l) := by
          simp [List.length_cons]
          ring
      _ ≡ h0 * 256 ^ (c :: l).length + rabinKarpHash (c :: l) [ZMOD 101] :=
          Int.ModEq.add_left _ step3.symm

theorem rabinKarpHash_cons_modEq (c : Nat) (l : JStr) :
    rabinKarpHash (c :: l) ≡
      (c : Int) * 256 ^ l.length + rabinKarpHash l [ZMOD 101] := by
  have h3 : rabinKarpHash (c :: l) =
      List.foldl (fun hash (c : Nat) => (hash * 256 + (c : Int)) % 101)
        ((0 * 256 + (c : Int)) % 101) l := rfl
  rw [h3]
  calc List.foldl (fun hash (c : Nat) => (hash * 256 + (c : Int)) % 101)
        ((0 * 256 + (c : Int)) % 101) l
      ≡ ((0 * 256 + (c : Int)) % 101) * 256 ^ l.length + rabinKarpHash l
        [ZMOD 101] := hash_foldl_modEq l _
    _ ≡ (0 * 256 + (c : Int)) * 256 ^ l.length + rabinKarpHash l [ZMOD 101] :=
        Int.ModEq.add_right _
          (Int.ModEq.mul_right _ (Int.emod_emod_of_dvd _ dvd_rfl))
    _ = (c : Int) * 256 ^ l.length + rabinKarpHash l := by ring

theorem jsSubstring_cons (t : JStr) (i m : Nat) (hm : 1 ≤ m)
    (hi : i + m ≤ t.length) :
    jsSubstring t i (i + m) = charCodeAt t i :: jsSubstring t (i + 1) (i + m) := by
  show (t.take (i + m)).drop i = _
  have h1 : i < (t.take (i + m)).length := by
    simp [List.length_take]
    omega
  rw [List.drop_eq_getElem_cons h1]
  congr 1
  rw [List.getElem_take]
  exact (charCodeAt_eq_getElem t i (by omega)).symm

theorem jsSubstring_snoc (t : JStr) (i m : Nat) (hm : 1 ≤ m)
    (hi : i + m < t.length) :
    jsSubstring t (i + 1) (i + 1 + m) =
      jsSubstring t (i + 1) (i + m) ++ [charCodeAt t (i + m)] := by
  show (t.take (i + 1 + m)).drop (i + 1) = _
  have he : i + 1 + m = (i + m) + 1 := by omega
  rw [he, List.take_succ, List.getElem?_eq_getElem hi]
  simp only [Option.toList_some]
  rw [List.drop_append_of_le_length (by simp [List.length_take]; omega)]
  rw [charCodeAt_eq_getElem t (i + m) hi]
  rfl

theorem jsSubstring_rest_length (t : JStr) (i m : Nat) (hi : i + m ≤ t.length) :
    (jsSubstring t (i + 1) (i + m)).length = m - 1 := by
  simp [jsSubstring, List.length_drop, List.length_take]
  omega

/-- The rolling-hash update is correct in the exact regime: starting
from the genuine hash of window `i` with a genuine `h` it produces the
genuine hash of window `i + 1`. -/
theorem rollHash_correct (t : JStr) (m : Nat) (hm : 1 ≤ m) (i : Nat)
    (hi : i + m < t.length) :
    rollHash t (some ((256 ^ (m - 1) : Int) % 101)) m
        (some (rabinKarpHash (jsSubstring t i (i + m)))) i =
      some (rabinKarpHash (jsSubstring t (i + 1) (i + 1 + m))) := by
  have hwin : jsSubstring t i (i + m) =
      charCodeAt t i :: jsSubstring t (i + 1) (i + m) :=
    jsSubstring_cons t i m hm (by omega)
  have hwin2 : jsSubstring t (i + 1) (i + 1 + m) =
      jsSubstring t (i + 1) (i + m) ++ [charCodeAt t (i + m)] :=
    jsSubstring_snoc t i m hm hi
  have hrl : (jsSubstring t (i + 1) (i + m)).length = m - 1 :=
    jsSubstring_rest_length t i m (by omega)
  have h1 : rabinKarpHash (jsSubstring t i (i + m)) ≡
      (charCodeAt t i : Int) * 256 ^ (m - 1) +
        rabinKarpHash (jsSubstring t (i + 1) (i + m)) [ZMOD 101] := by
    rw [hwin]
    have := rabinKarpHash_cons_modEq (charCodeAt t i) (jsSubstring t (i + 1) (i + m))
    rwa [hrl] at this
  have h2 : (charCodeAt t i : Int) * ((256 ^ (m - 1) : Int) % 101) ≡
      (charCodeAt t i : Int) * 256 ^ (m - 1) [ZMOD 101] :=
    Int.ModEq.mul_left _ (Int.emod_emod_of_dvd _ dvd_rfl)
  have hcong : 256 * (rabinKarpHash (jsSubstring t i (i + m)) -
        (charCodeAt t i : Int) * ((256 ^ (m - 1) : Int) % 101)) +
        (charCodeAt t (i + m) : Int) ≡
      256 * rabinKarpHash (jsSubstring t (i + 1) (i + m)) +
        (charCodeAt t (i + m) : Int) [ZMOD 101] := by
    have h3 := (h1.sub h2).mul_left 256
    have h4 := h3.add_right ((charCodeAt t (i + m) : Int))
    calc 256 * (rabinKarpHash (jsSubstring t i (i + m)) -
          (charCodeAt t i : Int) * ((256 ^ (m - 1) : Int) % 101)) +
          (charCodeAt t (i + m) : Int)
        ≡ 256 * (((charCodeAt t i : Int) * 256 ^ (m - 1) +
            rabinKarpHash (jsSubstring t (i + 1) (i + m))) -
            (charCodeAt t i : Int) * 256 ^ (m - 1)) +
          (charCodeAt t (i + m) : Int) [ZMOD 101] := h4
      _ = 256 * rabinKarpHash (jsSubstring t (i + 1) (i + m)) +
          (charCodeAt t (i + m) : Int) := by ring
  have hfix : rollHash t (some ((256 ^ (m - 1) : Int) % 101)) m
      (some (rabinKarpHash (jsSubstring t i (i + m)))) i =
      some ((256 * (rabinKarpHash (jsSubstring t i (i + m)) -
          (charCodeAt t i : Int) * ((256 ^ (m - 1) : Int) % 101)) +
        (charCodeAt t (i + m) : Int)) % 101) :=
    congrArg some (tmodFix_eq_emod _)
  rw [hfix, hwin2, rabinKarpHash_append]
  refine congrArg some ?_
  calc (256 * (rabinKarpHash (jsSubstring t i (i + m)) -
        (charCodeAt t i : Int) * ((256 ^ (m - 1) : Int) % 101)) +
        (charCodeAt t (i + m) : Int)) % 101
      = (256 * rabinKarpHash (jsSubstring t (i + 1) (i + m)) +
        (charCodeAt t (i + m) : Int)) % 101 := hcong
    _ = (rabinKarpHash (jsSubstring t (i + 1) (i + m)) * 256 +
        (charCodeAt t (i + m) : Int)) % 101 := by ring_nf

/-- The intersection count computed by the code (`for sh of set1` with
`set2.has`) is the cardinality of the intersection of the two shingle
sets. -/
theorem interCard_eq (s1 s2 : List JStr) :
    (s1.dedup.filter (fun x => x ∈ s2)).length =
      (s1.toFinset ∩ s2.toFinset).card := by
  have hnd : (s1.dedup.filter (fun x => x ∈ s2)).Nodup :=
    List.Nodup.filter _ (List.nodup_dedup s1)
  rw [← List.toFinset_card_of_nodup hnd]
  congr 1
  ext x
  simp [List.mem_filter, List.mem_dedup]

theorem interCard_comm (s1 s2 : List JStr) :
    (s1.dedup.filter (fun x => x ∈ s2)).length =
      (s2.dedup.filter (fun x => x ∈ s1)).length := by
  rw [interCard_eq, interCard_eq, Finset.inter_comm]

/-- The union count (`new Set([...set1, ...set2]).size`). -/
theorem unionCard_eq (s1 s2 : List JStr) :
    ((s1 ++ s2).dedup).length = (s1.toFinset ∪ s2.toFinset).card := by
  rw [← List.toFinset_card_of_nodup (List.nodup_dedup (s1 ++ s2))]
  congr 1
  ext x
  simp [List.mem_dedup]

theorem unionCard_comm (s1 s2 : List JStr) :
    ((s1 ++ s2).dedup).length = ((s2 ++ s1).dedup).length := by
  rw [unionCard_eq, unionCard_eq, Finset.union_comm]

theorem jaccardSimilarity_comm (s1 s2 : List JStr) :
    jaccardSimilarity s1 s2 = jaccardSimilarity s2 s1 := by
  unfold jaccardSimilarity
  rw [interCard_comm, unionCard_comm]

theorem lcsuf_comm (s1 s2 : JStr) : ∀ i j, lcsuf s1 s2 i j = lcsuf s2 s1 j i := by
  intro i
  induction i with
  | zero =>
    intro j
    cases j <;> simp [lcsuf]
  | succ i ih =>
    intro j
    cases j with
    | zero => simp [lcsuf]
    | succ j =>
      rw [lcsuf, lcsuf]
      rcases eq_or_ne (charCodeAt s1 i) (charCodeAt s2 j) with h | h
      · rw [if_pos h, if_pos h.symm, ih j]
      · rw [if_neg h, if_neg (Ne.symm h)]

theorem mem_lcsCells_iff {m n i j : Nat} :
    (i, j) ∈ lcsCells m n ↔ 1 ≤ i ∧ i ≤ m ∧ 1 ≤ j ∧ j ≤ n := by
  constructor
  · exact mem_lcsCells
  · rintro ⟨h1, h2, h3, h4⟩
    simp only [lcsCells, List.mem_flatMap, List.mem_map, List.mem_range]
    exact ⟨i - 1, by omega, j - 1, by omega, by
      rw [Prod.mk.injEq]
      omega⟩

theorem foldl_max_eq_sup (g : Nat × Nat → Nat) (l : List (Nat × Nat)) :
    ∀ a : Nat, l.foldl (fun acc c => max acc (g c)) a = max a (l.toFinset.sup g) := by
  induction l with
  | nil =>
    intro a
    simp
  | cons c l ih =>
    intro a
    simp only [List.foldl_cons, List.toFinset_cons, Finset.sup_insert]
    rw [ih (max a (g c))]
    have : Finset.sup l.toFinset g = Finset.sup l.toFinset g := rfl
    omega

/-- The first component of the scan state is the running maximum of the
DP cells visited so far. -/
theorem foldl_lcsStep_fst (s1 s2 : JStr) (cells : List (Nat × Nat))
    (hcells : ∀ c ∈ cells, 1 ≤ c.1 ∧ 1 ≤ c.2) :
    ∀ st : Nat × Nat,
      (cells.foldl (lcsStep s1 s2) st).1 =
        cells.foldl (fun acc c => max acc (lcsuf s1 s2 c.1 c.2)) st.1 := by
  induction cells with
  | nil => intro st; rfl
  | cons c cells ih =>
    intro st
    obtain ⟨i, j⟩ := c
    obtain ⟨hi, hj⟩ := hcells (i, j) (by simp)
    have hstep : (lcsStep s1 s2 st (i, j)).1 = max st.1 (lcsuf s1 s2 i j) := by
      rw [lcsStep]
      split
      · rename_i hcond
        simp only [Prod.fst, Prod.snd] at hcond ⊢
        omega
      · rename_i hcond
        rw [not_and_or] at hcond
        rcases hcond with h | h
        · -- characters differ: the cell value is zero
          have hz : lcsuf s1 s2 i j = 0 := by
            obtain ⟨i', rfl⟩ : ∃ i', i = i' + 1 := ⟨i - 1, by omega⟩
            obtain ⟨j', rfl⟩ : ∃ j', j = j' + 1 := ⟨j - 1, by omega⟩
            rw [lcsuf, if_neg]
            simpa using h
          simp [hz]
        · simp only [Prod.fst, Prod.snd] at h ⊢
          omega
    simp only [List.foldl_cons]
    rw [ih (fun c hc => hcells c (by simp [hc])) (lcsStep s1 s2 st (i, j)), hstep]

theorem lcsScan_fst_eq_sup (s1 s2 : JStr) :
    (lcsScan s1 s2).1 =
      (lcsCells s1.length s2.length).toFinset.sup
        (fun c => lcsuf s1 s2 c.1 c.2) := by
  rw [lcsScan]
  rw [foldl_lcsStep_fst s1 s2 _ (fun c hc => by
    obtain ⟨i, j⟩ := c
    have := mem_lcsCells hc
    exact ⟨by omega, by omega⟩) (0, 0)]
  rw [foldl_max_eq_sup]
  simp

theorem lcsScan_fst_comm (s1 s2 : JStr) :
    (lcsScan s1 s2).1 = (lcsScan s2 s1).1 := by
  rw [lcsScan_fst_eq_sup, lcsScan_fst_eq_sup]
  have himg : (lcsCells s1.length s2.length).toFinset =
      (lcsCells s2.length s1.length).toFinset.image Prod.swap := by
    ext c
    obtain ⟨i, j⟩ := c
    simp only [List.mem_toFinset, Finset.mem_image, mem_lcsCells_iff]
    constructor
    · rintro ⟨h1, h2, h3, h4⟩
      exact ⟨(j, i), by simp [mem_lcsCells_iff]; omega, rfl⟩
    · rintro ⟨⟨j', i'⟩, hmem, hsw⟩
      simp only [List.mem_toFinset, mem_lcsCells_iff] at hmem
      rw [Prod.swap_prod_mk] at hsw
      cases hsw
      omega
  rw [himg, Finset.sup_image]
  apply Finset.sup_congr rfl
  intro c _
  obtain ⟨j, i⟩ := c
  show lcsuf s1 s2 i j = lcsuf s2 s1 j i
  exact lcsuf_comm s1 s2 i j

/-- The length of the returned longest common substring is the scan's
`maxLength`. -/
theorem longestCommonSubstring_length (a b : JStr) (cap : Nat) :
    (longestCommonSubstring a b cap).length =
      (lcsScan (a.take cap) (b.take cap)).1 := by
  obtain ⟨hle, hei, _, _, _, _⟩ := lcsScan_inv (a.take cap) (b.take cap)
  show (((a.take cap).take _).drop _).length = _
  rw [List.length_drop, List.length_take]
  omega

theorem longestCommonSubstring_length_comm (a b : JStr) (cap : Nat) :
    (longestCommonSubstring a b cap).length =
      (longestCommonSubstring b a cap).length := by
  rw [longestCommonSubstring_length, longestCommonSubstring_length,
    lcsScan_fst_comm]

/-- Reachability along adjacency lists (the paths a graph traversal can
follow). -/
inductive Reach (g : JsGraph) : JStr → JStr → Prop
  | refl (v : JStr) : Reach g v v
  | tail {u w x : JStr} : Reach g u w → x ∈ g.adj w → Reach g u x

theorem reach_trans {g : JsGraph} {a b c : JStr}
    (h1 : Reach g a b) (h2 : Reach g b c) : Reach g a c := by
  induction h2 with
  | refl => exact h1
  | tail h hx ih => exact Reach.tail ih hx

/-- Well-formedness of graphs built by `createClusters`: no duplicate
vertices, empty adjacency outside the vertex set, edges inside the
vertex set, and symmetric adjacency. -/
def GraphWF (g : JsGraph) : Prop :=
  g.verts.Nodup ∧
    (∀ v, v ∉ g.verts → g.adj v = []) ∧
    (∀ u w, w ∈ g.adj u → u ∈ g.verts ∧ w ∈ g.verts) ∧
    (∀ u w, w ∈ g.adj u → u ∈ g.adj w)

theorem reach_symm {g : JsGraph} (hs : ∀ u w, w ∈ g.adj u → u ∈ g.adj w)
    {a b : JStr} (h : Reach g a b) : Reach g b a := by
  induction h with
  | refl => exact Reach.refl _
  | tail h hx ih =>
    rename_i w x
    exact reach_trans (Reach.tail (Reach.refl x) (hs w x hx)) ih

theorem mem_addNeighbor {l : List JStr} {x w : JStr} :
    w ∈ addNeighbor l x ↔ w ∈ l ∨ w = x := by
  unfold addNeighbor
  split
  · rename_i h
    constructor
    · exact Or.inl
    · rintro (hw | rfl)
      · exact hw
      · exact h
  · simp

theorem addVertex_verts_mem {g : JsGraph} {v x : JStr} :
    x ∈ (addVertex g v).verts ↔ x ∈ g.verts ∨ x = v := by
  unfold addVertex
  split
  · rename_i h
    constructor
    · exact Or.inl
    · rintro (hx | rfl)
      · exact hx
      · exact h
  · simp

/-- Under the emptiness invariant, `addVertex` does not change the
adjacency function. -/
theorem addVertex_adj {g : JsGraph} (hwf : ∀ v, v ∉ g.verts → g.adj v = [])
    (v : JStr) : (addVertex g v).adj = g.adj := by
  unfold addVertex
  split
  · rfl
  · rename_i h
    funext u
    simp only []
    split
    · rename_i hu
      subst hu
      exact (hwf u h).symm
    · rfl

theorem addVertex_wf {g : JsGraph} (hwf : GraphWF g) (v : JStr) :
    GraphWF (addVertex g v) := by
  obtain ⟨h1, h2, h3, h4⟩ := hwf
  have hadj : (addVertex g v).adj = g.adj := addVertex_adj h2 v
  refine ⟨?_, ?_, ?_, ?_⟩
  · unfold addVertex
    split
    · exact h1
    · rename_i h
      simp [List.nodup_append, h1, h]
  · intro u hu
    rw [hadj]
    apply h2
    intro hmem
    exact hu (addVertex_verts_mem.mpr (Or.inl hmem))
  · intro u w hw
    rw [hadj] at hw
    obtain ⟨hu, hwv⟩ := h3 u w hw
    exact ⟨addVertex_verts_mem.mpr (Or.inl hu), addVertex_verts_mem.mpr (Or.inl hwv)⟩
  · intro u w hw
    rw [hadj] at hw ⊢
    exact h4 u w hw

theorem addEdge_verts_mem {g : JsGraph} {a b x : JStr} :
    x ∈ (addEdge g a b).verts ↔ x ∈ g.verts ∨ x = a ∨ x = b := by
  show x ∈ (addVertex (addVertex g a) b).verts ↔ _
  rw [addVertex_verts_mem, addVertex_verts_mem]
  tauto

/-- Membership in the adjacency lists after `addEdge`. -/
theorem addEdge_adj_mem {g : JsGraph} (hwf : GraphWF g) {a b u w : JStr} :
    w ∈ (addEdge g a b).adj u ↔
      w ∈ g.adj u ∨ (u = a ∧ w = b) ∨ (u = b ∧ w = a) := by
  obtain ⟨h1, h2, h3, h4⟩ := hwf
  have hadj1 : (addVertex g a).adj = g.adj := addVertex_adj h2 a
  have hadj2 : (addVertex (addVertex g a) b).adj = g.adj := by
    rw [addVertex_adj, hadj1]
    intro v hv
    rw [hadj1]
    apply h2
    intro hmem
    exact hv (addVertex_verts_mem.mpr (Or.inl hmem))
  have hstep : (addEdge g a b).adj u =
      (if u = b then addNeighbor (if b = a then addNeighbor (g.adj a) b else g.adj b) a
        else if u = a then addNeighbor (g.adj a) b else g.adj u) := by
    simp only [addEdge, hadj2]
  rw [hstep]
  rcases eq_or_ne u b with hub | hub
  · rw [if_pos hub]
    rcases eq_or_ne b a with hba | hba
    · rw [if_pos hba, mem_addNeighbor, mem_addNeighbor]
      subst hub
      subst hba
      tauto
    · rw [if_neg hba, mem_addNeighbor]
      subst hub
      tauto
  · rw [if_neg hub]
    rcases eq_or_ne u a with hua | hua
    · rw [if_pos hua, mem_addNeighbor]
      subst hua
      tauto
    · rw [if_neg hua]
      tauto

theorem addEdge_wf {g : JsGraph} (hwf : GraphWF g) (a b : JStr) :
    GraphWF (addEdge g a b) := by
  have hwf2 : GraphWF (addVertex (addVertex g a) b) :=
    addVertex_wf (addVertex_wf hwf a) b
  have hverts : (addEdge g a b).verts = (addVertex (addVertex g a) b).verts := rfl
  have hmemv : ∀ x, x ∈ (addEdge g a b).verts ↔ x ∈ g.verts ∨ x = a ∨ x = b :=
    fun x => addEdge_verts_mem
  refine ⟨?_, ?_, ?_, ?_⟩
  · rw [hverts]
    exact hwf2.1
  · intro v hv
    rw [hverts] at hv
    rw [List.eq_nil_iff_forall_not_mem]
    intro w hw
    rw [addEdge_adj_mem hwf] at hw
    rcases hw with hw | ⟨rfl, rfl⟩ | ⟨rfl, rfl⟩
    · exact hv ((addVertex_verts_mem.mpr ∘ Or.inl)
        (addVertex_verts_mem.mpr (Or.inl (hwf.2.2.1 v w hw).1)))
    · exact hv (addVertex_verts_mem.mpr (Or.inl (addVertex_verts_mem.mpr (Or.inr rfl))))
    · exact hv (addVertex_verts_mem.mpr (Or.inr rfl))
  · intro u w hw
    rw [addEdge_adj_mem hwf] at hw
    rcases hw with hw | ⟨rfl, rfl⟩ | ⟨rfl, rfl⟩
    · obtain ⟨hu, hw'⟩ := hwf.2.2.1 u w hw
      exact ⟨(hmemv u).mpr (Or.inl hu), (hmemv w).mpr (Or.inl hw')⟩
    · exact ⟨(hmemv u).mpr (Or.inr (Or.inl rfl)), (hmemv w).mpr (Or.inr (Or.inr rfl))⟩
    · exact ⟨(hmemv u).mpr (Or.inr (Or.inr rfl)), (hmemv w).mpr (Or.inr (Or.inl rfl))⟩
  · intro u w hw
    rw [addEdge_adj_mem hwf] at hw ⊢
    rcases hw with hw | ⟨rfl, rfl⟩ | ⟨rfl, rfl⟩
    · exact Or.inl (hwf.2.2.2 u w hw)
    · exact Or.inr (Or.inr ⟨rfl, rfl⟩)
    · exact Or.inr (Or.inl ⟨rfl, rfl⟩)

theorem buildGraph_g0_wf (documents : List Document) :
    GraphWF (documents.foldl (fun g d => addVertex g d.id) emptyGraph) := by
  have base : GraphWF emptyGraph :=
    ⟨List.nodup_nil, fun _ _ => rfl, fun u w hw => by simp [emptyGraph] at hw,
      fun u w hw => by simp [emptyGraph] at hw⟩
  generalize emptyGraph = g0 at base ⊢
  induction documents generalizing g0 with
  | nil => exact base
  | cons d ds ih => exact ih _ (addVertex_wf base d.id)

theorem buildGraph_wf (documents : List Document)
    (similarities : List SimilarityResult) (threshold : ℚ) :
    GraphWF (buildGraph documents similarities threshold) := by
  unfold buildGraph
  have base := buildGraph_g0_wf documents
  generalize (documents.foldl (fun g d => addVertex g d.id) emptyGraph) = g0 at base ⊢
  induction similarities generalizing g0 with
  | nil => exact base
  | cons sim sims ih =>
    simp only [List.foldl_cons]
    apply ih
    split
    · exact addEdge_wf base _ _
    · exact base

/-- Raising the threshold removes edges and vertices but never adds
any. -/
theorem buildGraph_monotone (documents : List Document)
    (similarities : List SimilarityResult) {t1 t2 : ℚ} (ht : t1 ≤ t2) :
    (∀ u w, w ∈ (buildGraph documents similarities t2).adj u →
        w ∈ (buildGraph documents similarities t1).adj u) ∧
      (∀ x, x ∈ (buildGraph documents similarities t2).verts →
        x ∈ (buildGraph documents similarities t1).verts) := by
  unfold buildGraph
  have base := buildGraph_g0_wf documents
  generalize (documents.foldl (fun g d => addVertex g d.id) emptyGraph) = g0 at base ⊢
  have main : ∀ (sims : List SimilarityResult) (g1 g2 : JsGraph),
      GraphWF g1 → GraphWF g2 →
      (∀ u w, w ∈ g2.adj u → w ∈ g1.adj u) →
      (∀ x, x ∈ g2.verts → x ∈ g1.verts) →
      (∀ u w, w ∈ (sims.foldl (fun g sim =>
          if t2 ≤ sim.similarity then addEdge g sim.doc1Id sim.doc2Id else g) g2).adj u →
        w ∈ (sims.foldl (fun g sim =>
          if t1 ≤ sim.similarity then addEdge g sim.doc1Id sim.doc2Id else g) g1).adj u) ∧
      (∀ x, x ∈ (sims.foldl (fun g sim =>
          if t2 ≤ sim.similarity then addEdge g sim.doc1Id sim.doc2Id else g) g2).verts →
        x ∈ (sims.foldl (fun g sim =>
          if t1 ≤ sim.similarity then addEdge g sim.doc1Id sim.doc2Id else g) g1).verts) := by
    intro sims
    induction sims with
    | nil => intro g1 g2 _ _ hadj hv; exact ⟨hadj, hv⟩
    | cons sim sims ih =>
      intro g1 g2 hw1 hw2 hadj hv
      simp only [List.foldl_cons]
      rcases le_or_lt t2 sim.similarity with h2 | h2
      · have h1 : t1 ≤ sim.similarity := le_trans ht h2
        rw [if_pos h1, if_pos h2]
        apply ih _ _ (addEdge_wf hw1 _ _) (addEdge_wf hw2 _ _)
        · intro u w hw
          rw [addEdge_adj_mem hw2] at hw
          rw [addEdge_adj_mem hw1]
          rcases hw with hw | hw | hw
          · exact Or.inl (hadj u w hw)
          · exact Or.inr (Or.inl hw)
          · exact Or.inr (Or.inr hw)
        · intro x hx
          rw [addEdge_verts_mem] at hx
          rw [addEdge_verts_mem]
          rcases hx with hx | hx | hx
          · exact Or.inl (hv x hx)
          · exact Or.inr (Or.inl hx)
          · exact Or.inr (Or.inr hx)
      · rw [if_neg (not_le.mpr h2)]
        split
        · apply ih _ _ (addEdge_wf hw1 _ _) hw2
          · intro u w hw
            rw [addEdge_adj_mem hw1]
            exact Or.inl (hadj u w hw)
          · intro x hx
            rw [addEdge_verts_mem]
            exact Or.inl (hv x hx)
        · exact ih _ _ hw1 hw2 hadj hv
  exact main similarities g0 g0 base base (fun _ _ h => h) (fun _ h => h)

/-- Removing edges preserves unreachability: every walk of the sparser
graph is a walk of the denser one. -/
theorem reach_mono {g1 g2 : JsGraph} (h : ∀ u w, w ∈ g2.adj u → w ∈ g1.adj u)
    {a b : JStr} (hr : Reach g2 a b) : Reach g1 a b := by
  induction hr with
  | refl => exact Reach.refl _
  | tail hr hadj ih => exact Reach.tail ih (h _ _ hadj)

/-- A list closed under taking neighbors absorbs everything reachable
from one of its members. -/
theorem reach_closed {g : JsGraph} {V : List JStr}
    (hcl : ∀ u ∈ V, ∀ w ∈ g.adj u, w ∈ V) {v x : JStr}
    (h : Reach g v x) (hv : v ∈ V) : x ∈ V := by
  induction h with
  | refl => exact hv
  | tail h hadj ih =>
    rename_i w x'
    exact hcl w ih x' hadj

/-- The block of vertices a call `dfs(neighbor)` loop adds: every call
the loop makes is on an unvisited vertex, so a description of such calls
lifts to the whole loop. -/
theorem dfsListAux_delta {g : JsGraph}
    {dfs : JStr → List JStr × List JStr → List JStr × List JStr}
    (hdfs : ∀ u s, u ∉ s.1 →
      ∃ δ : List JStr, (dfs u s).1 = δ ++ s.1 ∧ (dfs u s).2 = s.2 ++ δ.reverse ∧
        δ.Nodup ∧ (∀ x ∈ δ, x ∉ s.1) ∧ (∀ x ∈ δ, Reach g u x)) :
    ∀ (l : List JStr) (s : List JStr × List JStr),
      ∃ δ : List JStr, (dfsListAux dfs l s).1 = δ ++ s.1 ∧
        (dfsListAux dfs l s).2 = s.2 ++ δ.reverse ∧
        δ.Nodup ∧ (∀ x ∈ δ, x ∉ s.1) ∧ (∀ x ∈ δ, ∃ u ∈ l, Reach g u x) := by
  intro l
  induction l with
  | nil =>
    intro s
    exact ⟨[], rfl, by simp [dfsListAux], List.nodup_nil, by simp, by simp⟩
  | cons u us ih =>
    intro s
    by_cases hu : u ∈ s.1
    · obtain ⟨δ, h1, h2, h3, h4, h5⟩ := ih s
      refine ⟨δ, ?_, ?_, h3, h4, ?_⟩
      · simp only [dfsListAux]
        rw [if_pos hu]
        exact h1
      · simp only [dfsListAux]
        rw [if_pos hu]
        exact h2
      · intro x hx
        obtain ⟨w, hw, hr⟩ := h5 x hx
        exact ⟨w, List.mem_cons_of_mem _ hw, hr⟩
    · obtain ⟨δ1, e1, e2, n1, f1, r1⟩ := hdfs u s hu
      obtain ⟨δ2, g1, g2, n2, f2, r2⟩ := ih (dfs u s)
      refine ⟨δ2 ++ δ1, ?_, ?_, ?_, ?_, ?_⟩
      · simp only [dfsListAux]
        rw [if_neg hu, g1, e1, List.append_assoc]
      · simp only [dfsListAux]
        rw [if_neg hu, g2, e2, List.reverse_append, List.append_assoc]
      · rw [List.nodup_append]
        refine ⟨n2, n1, ?_⟩
        intro x hx2 hx1
        have hx := f2 x hx2
        rw [e1] at hx
        exact hx (List.mem_append.mpr (Or.inl hx1))
      · intro x hx
        rcases List.mem_append.mp hx with hx | hx
        · have hx' := f2 x hx
          rw [e1] at hx'
          exact fun hxs => hx' (List.mem_append.mpr (Or.inr hxs))
        · exact f1 x hx
      · intro x hx
        rcases List.mem_append.mp hx with hx | hx
        · obtain ⟨w, hw, hr⟩ := r2 x hx
          exact ⟨w, List.mem_cons_of_mem _ hw, hr⟩
        · exact ⟨u, List.mem_cons_self u us, r1 x hx⟩

/-- What one `dfs(vertex)` call adds to the visited set and the
component: a nonempty, duplicate-free block of fresh vertices reachable
from the start vertex, appended in matching order to both records. -/
theorem dfsVisit_delta (g : JsGraph) :
    ∀ (fuel : Nat) (v : JStr) (s : List JStr × List JStr), v ∉ s.1 →
      ∃ δ : List JStr, (dfsVisit g fuel v s).1 = δ ++ s.1 ∧
        (dfsVisit g fuel v s).2 = s.2 ++ δ.reverse ∧
        δ.Nodup ∧ (∀ x ∈ δ, x ∉ s.1) ∧ (∀ x ∈ δ, Reach g v x) ∧
        (0 < fuel → v ∈ δ) := by
  intro fuel
  induction fuel with
  | zero =>
    intro v s _
    exact ⟨[], rfl, by simp [dfsVisit], List.nodup_nil, by simp, by simp, by simp⟩
  | succ fuel ih =>
    intro v s hv
    have hdfs : ∀ u t, u ∉ t.1 →
        ∃ δ : List JStr, (dfsVisit g fuel u t).1 = δ ++ t.1 ∧
          (dfsVisit g fuel u t).2 = t.2 ++ δ.reverse ∧
          δ.Nodup ∧ (∀ x ∈ δ, x ∉ t.1) ∧ (∀ x ∈ δ, Reach g u x) := by
      intro u t hu
      obtain ⟨δ, a, b, c, d, e, -⟩ := ih u t hu
      exact ⟨δ, a, b, c, d, e⟩
    obtain ⟨δ0, h1, h2, h3, h4, h5⟩ :=
      dfsListAux_delta hdfs (g.adj v) (v :: s.1, s.2 ++ [v])
    simp only [dfsVisit]
    refine ⟨δ0 ++ [v], ?_, ?_, ?_, ?_, ?_, ?_⟩
    · rw [h1]
      simp
    · rw [h2]
      simp
    · rw [List.nodup_append]
      refine ⟨h3, List.nodup_singleton v, ?_⟩
      intro x hx hxv
      rw [List.mem_singleton] at hxv
      exact h4 x hx (by rw [hxv]; exact List.mem_cons_self v s.1)
    · intro x hx
      rcases List.mem_append.mp hx with hx | hx
      · exact fun hxs => h4 x hx (List.mem_cons_of_mem v hxs)
      · rw [List.mem_singleton] at hx
        rw [hx]
        exact hv
    · intro x hx
      rcases List.mem_append.mp hx with hx | hx
      · obtain ⟨u, hu, hr⟩ := h5 x hx
        exact reach_trans (Reach.tail (Reach.refl v) hu) hr
      · rw [List.mem_singleton] at hx
        rw [hx]
        exact Reach.refl v
    · intro _
      exact List.mem_append.mpr (Or.inr (List.mem_singleton.mpr rfl))

/-- The DFS only grows the visited set. -/
theorem dfsVisit_mono (g : JsGraph) (fuel : Nat) (v : JStr)
    (s : List JStr × List JStr) (hv : v ∉ s.1) :
    ∀ x ∈ s.1, x ∈ (dfsVisit g fuel v s).1 := by
  obtain ⟨δ, h1, -, -, -, -, -⟩ := dfsVisit_delta g fuel v s hv
  intro x hx
  rw [h1]
  exact List.mem_append.mpr (Or.inr hx)

/-- Growing the visited set shrinks the unvisited count. -/
theorem filter_not_mem_length_le {l s1 s2 : List JStr}
    (h : ∀ x ∈ s1, x ∈ s2) :
    (l.filter (fun x => x ∉ s2)).length ≤ (l.filter (fun x => x ∉ s1)).length := by
  apply List.Sublist.length_le
  apply List.monotone_filter_right
  intro a ha
  simp only [decide_eq_true_eq] at ha ⊢
  exact fun hmem => ha (h a hmem)

/-- Visiting a fresh vertex of the graph strictly shrinks the unvisited
count. -/
theorem filter_not_mem_length_lt {l s : List JStr} {v : JStr}
    (hvl : v ∈ l) (hvs : v ∉ s) :
    (l.filter (fun x => x ∉ v :: s)).length < (l.filter (fun x => x ∉ s)).length := by
  have heq : l.filter (fun x => x ∉ v :: s) =
      (l.filter (fun x => x ∉ s)).filter (fun x => x ≠ v) := by
    rw [List.filter_filter]
    apply List.filter_congr
    intro a _
    by_cases h1 : a = v <;> by_cases h2 : a ∈ s <;>
      simp [List.mem_cons, h1, h2]
  rw [heq, List.length_filter_lt_length_iff_exists]
  refine ⟨v, ?_, ?_⟩
  · rw [List.mem_filter]
    exact ⟨hvl, by simpa using hvs⟩
  · simp

/-- The neighbor loop of the DFS: afterwards the old visited set
persists, every listed neighbor is visited, and every newly visited
vertex has all its neighbors visited — provided single calls behave that
way below the fuel bound. -/
theorem dfsListAux_closure {g : JsGraph}
    {dfs : JStr → List JStr × List JStr → List JStr × List JStr} {fuel : Nat}
    (hmono : ∀ u t, u ∉ t.1 → ∀ x ∈ t.1, x ∈ (dfs u t).1)
    (hmem : ∀ u t, u ∉ t.1 →
      (g.verts.filter (fun x => x ∉ t.1)).length < fuel → u ∈ (dfs u t).1)
    (hclosed : ∀ u t, u ∉ t.1 → u ∈ g.verts →
      (g.verts.filter (fun x => x ∉ t.1)).length < fuel →
      ∀ x ∈ (dfs u t).1, x ∉ t.1 → ∀ w ∈ g.adj x, w ∈ (dfs u t).1) :
    ∀ (l : List JStr) (t : List JStr × List JStr),
      (∀ u ∈ l, u ∈ g.verts) →
      (g.verts.filter (fun x => x ∉ t.1)).length < fuel →
      ((∀ x ∈ t.1, x ∈ (dfsListAux dfs l t).1) ∧
        (∀ u ∈ l, u ∈ (dfsListAux dfs l t).1) ∧
        (∀ x ∈ (dfsListAux dfs l t).1, x ∉ t.1 →
          ∀ w ∈ g.adj x, w ∈ (dfsListAux dfs l t).1)) := by
  intro l
  induction l with
  | nil =>
    intro t _ _
    refine ⟨fun x hx => hx, by simp, ?_⟩
    intro x hx hxt
    exact absurd hx hxt
  | cons u us ih =>
    intro t hl hlt
    simp only [dfsListAux]
    by_cases hu : u ∈ t.1
    · rw [if_pos hu]
      obtain ⟨a, b, c⟩ := ih t (fun w hw => hl w (List.mem_cons_of_mem u hw)) hlt
      refine ⟨a, ?_, c⟩
      intro w hw
      rcases List.mem_cons.mp hw with rfl | hw
      · exact a w hu
      · exact b w hw
    · rw [if_neg hu]
      have h1 : ∀ x ∈ t.1, x ∈ (dfs u t).1 := hmono u t hu
      have hlt1 : (g.verts.filter (fun x => x ∉ (dfs u t).1)).length < fuel :=
        lt_of_le_of_lt (filter_not_mem_length_le h1) hlt
      obtain ⟨a, b, c⟩ := ih (dfs u t) (fun w hw => hl w (List.mem_cons_of_mem u hw)) hlt1
      refine ⟨?_, ?_, ?_⟩
      · intro x hx
        exact a x (h1 x hx)
      · intro w hw
        rcases List.mem_cons.mp hw with rfl | hw
        · exact a w (hmem w t hu hlt)
        · exact b w hw
      · intro x hx hxt
        by_cases hx1 : x ∈ (dfs u t).1
        · intro w hw
          exact a w (hclosed u t hu (hl u (List.mem_cons_self u us)) hlt x hx1 hxt w hw)
        · exact c x hx hx1

/-- With fuel exceeding the number of unvisited vertices, the DFS leaves
every newly visited vertex with all its neighbors visited. -/
theorem dfsVisit_closed (g : JsGraph) (hwf : GraphWF g) :
    ∀ (fuel : Nat) (v : JStr) (s : List JStr × List JStr),
      v ∉ s.1 → v ∈ g.verts →
      (g.verts.filter (fun x => x ∉ s.1)).length < fuel →
      ∀ x ∈ (dfsVisit g fuel v s).1, x ∉ s.1 →
        ∀ w ∈ g.adj x, w ∈ (dfsVisit g fuel v s).1 := by
  intro fuel
  induction fuel with
  | zero =>
    intro v s _ _ hlt
    exact absurd hlt (Nat.not_lt_zero _)
  | succ fuel ih =>
    intro v s hv hvg hlt
    simp only [dfsVisit]
    have hlt0 : (g.verts.filter (fun x => x ∉ (v :: s.1, s.2 ++ [v]).1)).length < fuel := by
      have hd : (g.verts.filter (fun x => x ∉ v :: s.1)).length <
          (g.verts.filter (fun x => x ∉ s.1)).length :=
        filter_not_mem_length_lt hvg hv
      have he : (g.verts.filter (fun x => x ∉ (v :: s.1, s.2 ++ [v]).1)).length =
          (g.verts.filter (fun x => x ∉ v :: s.1)).length := rfl
      omega
    have hmono : ∀ u t, u ∉ t.1 → ∀ x ∈ t.1, x ∈ (dfsVisit g fuel u t).1 :=
      fun u t hu => dfsVisit_mono g fuel u t hu
    have hmem : ∀ u t, u ∉ t.1 →
        (g.verts.filter (fun x => x ∉ t.1)).length < fuel →
        u ∈ (dfsVisit g fuel u t).1 := by
      intro u t hu hlt'
      obtain ⟨δ, e1, -, -, -, -, e6⟩ := dfsVisit_delta g fuel u t hu
      rw [e1]
      exact List.mem_append.mpr (Or.inl (e6 (by omega)))
    obtain ⟨-, hB, hC⟩ :=
      dfsListAux_closure hmono hmem ih (g.adj v) (v :: s.1, s.2 ++ [v])
        (fun u hu => (hwf.2.2.1 v u hu).2) hlt0
    intro x hx hxs
    by_cases hxv : x = v
    · subst hxv
      intro w hw
      exact hB w hw
    · refine hC x hx ?_
      intro hm
      rcases List.mem_cons.mp hm with h | h
      · exact hxv h
      · exact hxs h

/-- Full characterization of one DFS call, started at a fresh vertex of
the graph over a neighbor-closed visited set, with fuel exceeding the
unvisited count: it adds exactly the vertices reachable from the start,
each once, and leaves the visited set neighbor-closed. -/
theorem dfsVisit_spec (g : JsGraph) (hwf : GraphWF g) (fuel : Nat) (v : JStr)
    (s : List JStr × List JStr) (hv : v ∉ s.1) (hvg : v ∈ g.verts)
    (hclosed : ∀ u ∈ s.1, ∀ w ∈ g.adj u, w ∈ s.1)
    (hfuel : (g.verts.filter (fun x => x ∉ s.1)).length < fuel) :
    ∃ δ : List JStr,
      (dfsVisit g fuel v s).1 = δ ++ s.1 ∧
      (dfsVisit g fuel v s).2 = s.2 ++ δ.reverse ∧
      δ.Nodup ∧ (∀ x ∈ δ, x ∉ s.1) ∧ (∀ x, x ∈ δ ↔ Reach g v x) ∧
      (∀ u ∈ (dfsVisit g fuel v s).1, ∀ w ∈ g.adj u, w ∈ (dfsVisit g fuel v s).1) := by
  obtain ⟨δ, h1, h2, h3, h4, h5, h6⟩ := dfsVisit_delta g fuel v s hv
  have hcl := dfsVisit_closed g hwf fuel v s hv hvg hfuel
  have hVclosed : ∀ u ∈ (dfsVisit g fuel v s).1, ∀ w ∈ g.adj u,
      w ∈ (dfsVisit g fuel v s).1 := by
    intro u hu w hw
    by_cases hus : u ∈ s.1
    · rw [h1]
      exact List.mem_append.mpr (Or.inr (hclosed u hus w hw))
    · exact hcl u hu hus w hw
  refine ⟨δ, h1, h2, h3, h4, ?_, hVclosed⟩
  intro x
  constructor
  · exact h5 x
  · intro hr
    have hfp : 0 < fuel := by omega
    have hvmem : v ∈ (dfsVisit g fuel v s).1 := by
      rw [h1]
      exact List.mem_append.mpr (Or.inl (h6 hfp))
    have hxmem := reach_closed hVclosed hr hvmem
    rw [h1] at hxmem
    rcases List.mem_append.mp hxmem with hx | hx
    · exact hx
    · exact absurd (reach_closed hclosed (reach_symm hwf.2.2.2 hr) hx) hv

/-- The outer loop of `findConnectedComponents`, over any suffix of the
vertex list and any neighbor-closed visited set built from earlier
components: every emitted component is a duplicate-free reachability
class rooted at a fresh vertex of the graph, components avoid the
visited set and each other, and every fresh pending vertex lands in some
component. -/
theorem ccGo_spec (g : JsGraph) (hwf : GraphWF g) :
    ∀ (pending visited : List JStr),
      (∀ u ∈ pending, u ∈ g.verts) →
      (∀ u ∈ visited, ∀ w ∈ g.adj u, w ∈ visited) →
      ((∀ c ∈ ccGo g pending visited,
          ∃ r, r ∈ g.verts ∧ r ∉ visited ∧ c.Nodup ∧ (∀ x, x ∈ c ↔ Reach g r x)) ∧
        (∀ c ∈ ccGo g pending visited, ∀ x ∈ c, x ∉ visited) ∧
        (ccGo g pending visited).Pairwise (fun c1 c2 => ∀ x ∈ c1, x ∉ c2) ∧
        (∀ v ∈ pending, v ∉ visited → ∃ c ∈ ccGo g pending visited, v ∈ c)) := by
  intro pending
  induction pending with
  | nil =>
    intro visited _ _
    refine ⟨?_, ?_, List.Pairwise.nil, ?_⟩
    · intro c hc
      simp [ccGo] at hc
    · intro c hc
      simp [ccGo] at hc
    · intro u hu
      simp at hu
  | cons v vs ih =>
    intro visited hpend hcl
    by_cases hv : v ∈ visited
    · simp only [ccGo, if_pos hv]
      obtain ⟨A, B, C, D⟩ := ih visited (fun u hu => hpend u (List.mem_cons_of_mem v hu)) hcl
      refine ⟨A, B, C, ?_⟩
      intro u hu hunv
      rcases List.mem_cons.mp hu with rfl | hu
      · exact absurd hv hunv
      · exact D u hu hunv
    · simp only [ccGo, if_neg hv]
      obtain ⟨δ, h1, h2, h3, h4, h5, h6⟩ :=
        dfsVisit_spec g hwf (g.verts.length + 1) v (visited, []) hv
          (hpend v (List.mem_cons_self v vs)) hcl
          (Nat.lt_succ_of_le (List.length_filter_le _ _))
      set res := dfsVisit g (g.verts.length + 1) v (visited, []) with hres
      obtain ⟨A, B, C, D⟩ := ih res.1 (fun u hu => hpend u (List.mem_cons_of_mem v hu)) h6
      have hsub : ∀ x ∈ visited, x ∈ res.1 := by
        intro x hx
        rw [h1]
        exact List.mem_append.mpr (Or.inr hx)
      have hδ1 : ∀ x ∈ δ, x ∈ res.1 := by
        intro x hx
        rw [h1]
        exact List.mem_append.mpr (Or.inl hx)
      have hcomp : res.2 = δ.reverse := by
        simp [h2]
      have hmemc : ∀ x, x ∈ res.2 ↔ Reach g v x := by
        intro x
        rw [hcomp, List.mem_reverse]
        exact h5 x
      refine ⟨?_, ?_, ?_, ?_⟩
      · intro c hc
        rcases List.mem_cons.mp hc with rfl | hc
        · refine ⟨v, hpend v (List.mem_cons_self v vs), hv, ?_, hmemc⟩
          rw [hcomp]
          exact List.nodup_reverse.mpr h3
        · obtain ⟨r, hrg, hrnv, hnd, hch⟩ := A c hc
          exact ⟨r, hrg, fun hrv => hrnv (hsub r hrv), hnd, hch⟩
      · intro c hc x hx
        rcases List.mem_cons.mp hc with rfl | hc
        · intro hxv
          have hxδ : x ∈ δ := by
            rw [hcomp, List.mem_reverse] at hx
            exact hx
          exact h4 x hxδ hxv
        · exact fun hxv => B c hc x hx (hsub x hxv)
      · refine List.Pairwise.cons ?_ C
        intro c' hc' x hx
        have hxδ : x ∈ δ := by
          rw [hcomp, List.mem_reverse] at hx
          exact hx
        exact fun hxc' => B c' hc' x hxc' (hδ1 x hxδ)
      · intro u hu hunv
        rcases List.mem_cons.mp hu with rfl | hu
        · exact ⟨res.2, List.mem_cons_self _ _, (hmemc _).mpr (Reach.refl _)⟩
        · by_cases hu1 : u ∈ res.1
          · refine ⟨res.2, List.mem_cons_self _ _, ?_⟩
            rw [hcomp, List.mem_reverse]
            rw [h1] at hu1
            rcases List.mem_append.mp hu1 with h | h
            · exact h
            · exact absurd h hunv
          · obtain ⟨c, hc, hcu⟩ := D u hu hu1
            exact ⟨c, List.mem_cons_of_mem _ hc, hcu⟩

/-- The connected components of a well-formed graph: duplicate-free
reachability classes, pairwise disjoint, covering every vertex. -/
theorem findConnectedComponents_spec (g : JsGraph) (hwf : GraphWF g) :
    (∀ c ∈ findConnectedComponents g,
        ∃ r, r ∈ g.verts ∧ c.Nodup ∧ (∀ x, x ∈ c ↔ Reach g r x)) ∧
      (findConnectedComponents g).Pairwise (fun c1 c2 => ∀ x ∈ c1, x ∉ c2) ∧
      (∀ v ∈ g.verts, ∃ c ∈ findConnectedComponents g, v ∈ c) := by
  obtain ⟨A, B, C, D⟩ := ccGo_spec g hwf g.verts [] (fun u hu => hu) (by simp)
  refine ⟨?_, C, ?_⟩
  · intro c hc
    obtain ⟨r, hrg, -, hnd, hch⟩ := A c hc
    exact ⟨r, hrg, hnd, hch⟩
  · intro u hu
    exact D u hu (by simp)

/-- Two distinct members force length at least two. -/
theorem two_mem_one_lt_length {c : List JStr} {x y : JStr}
    (hx : x ∈ c) (hy : y ∈ c) (hxy : x ≠ y) : 1 < c.length := by
  cases c with
  | nil => simp at hx
  | cons a t =>
    cases t with
    | nil =>
      rw [List.mem_singleton] at hx hy
      exact absurd (hx.trans hy.symm) hxy
    | cons b t2 =>
      simp only [List.length_cons]
      omega

/-- A duplicate-free list of length at least two has two distinct
members. -/
theorem nodup_two_le_exists {c : List JStr} (hnd : c.Nodup) (hlen : 2 ≤ c.length) :
    ∃ x y, x ∈ c ∧ y ∈ c ∧ x ≠ y := by
  cases c with
  | nil => simp at hlen
  | cons a t =>
    cases t with
    | nil => simp at hlen
    | cons b t2 =>
      refine ⟨a, b, List.mem_cons_self _ _,
        List.mem_cons_of_mem _ (List.mem_cons_self _ _), ?_⟩
      intro hab
      rw [List.nodup_cons] at hnd
      exact hnd.1 (by rw [hab]; exact List.mem_cons_self b t2)

/-- Every cluster's document list is one of the size-filtered connected
components. -/
theorem mem_createClusters (documents : List Document)
    (sims : List SimilarityResult) (t : ℚ) {cl : Cluster}
    (hcl : cl ∈ createClusters documents sims t) :
    cl.documents ∈ (findConnectedComponents (buildGraph documents sims t)).filter
      (fun comp => 1 < comp.length) := by
  simp only [createClusters] at hcl
  obtain ⟨p, hp, hpe⟩ := List.mem_map.mp hcl
  subst hpe
  show p.2 ∈ _
  have hm := List.mem_map_of_mem Prod.snd hp
  rw [List.enum_map_snd] at hm
  exact hm

/-- Conversely, every size-filtered component is some cluster's document
list. -/
theorem createClusters_mem_of_component {documents : List Document}
    {sims : List SimilarityResult} {t : ℚ} {c : List JStr}
    (hc : c ∈ (findConnectedComponents (buildGraph documents sims t)).filter
      (fun comp => 1 < comp.length)) :
    ∃ cl ∈ createClusters documents sims t, cl.documents = c := by
  obtain ⟨i, hi⟩ := List.mem_iff_get?.mp hc
  have hmem : (i, c) ∈ ((findConnectedComponents (buildGraph documents sims t)).filter
      (fun comp => 1 < comp.length)).enum := List.mk_mem_enum_iff_get?.mpr hi
  simp only [createClusters]
  exact ⟨_, List.mem_map_of_mem _ hmem, rfl⟩

/-- Each emitted cluster holds a duplicate-free reachability class of at
least two documents. -/
theorem createClusters_docs_spec (documents : List Document)
    (sims : List SimilarityResult) (t : ℚ) :
    ∀ cl ∈ createClusters documents sims t,
      cl.documents.Nodup ∧ 2 ≤ cl.documents.length ∧
      ∃ r, r ∈ (buildGraph documents sims t).verts ∧
        (∀ x, x ∈ cl.documents ↔ Reach (buildGraph documents sims t) r x) := by
  intro cl hcl
  have hmem := mem_createClusters documents sims t hcl
  rw [List.mem_filter] at hmem
  obtain ⟨hcomp, hlen⟩ := hmem
  have hlen' : 1 < cl.documents.length := by simpa using hlen
  obtain ⟨A, -, -⟩ := findConnectedComponents_spec (buildGraph documents sims t)
      (buildGraph_wf documents sims t)
  obtain ⟨r, hrg, hnd, hch⟩ := A cl.documents hcomp
  exact ⟨hnd, hlen', r, hrg, hch⟩

/-- Any vertex whose reachability class has two distinct members names a
cluster: the class survives the size filter. -/
theorem createClusters_cover (documents : List Document)
    (sims : List SimilarityResult) (t : ℚ) {v x y : JStr}
    (hv : v ∈ (buildGraph documents sims t).verts)
    (hxy : x ≠ y) (hx : Reach (buildGraph documents sims t) v x)
    (hy : Reach (buildGraph documents sims t) v y) :
    ∃ cl ∈ createClusters documents sims t,
      ∀ z, z ∈ cl.documents ↔ Reach (buildGraph documents sims t) v z := by
  have hwf := buildGraph_wf documents sims t
  obtain ⟨A, -, Cov⟩ := findConnectedComponents_spec _ hwf
  obtain ⟨c, hc, hvc⟩ := Cov v hv
  obtain ⟨r, hrg, hnd, hch⟩ := A c hc
  have hrv : Reach (buildGraph documents sims t) r v := (hch v).mp hvc
  have hvr : Reach (buildGraph documents sims t) v r := reach_symm hwf.2.2.2 hrv
  have hchar : ∀ z, z ∈ c ↔ Reach (buildGraph documents sims t) v z := by
    intro z
    rw [hch z]
    constructor
    · intro h
      exact reach_trans hvr h
    · intro h
      exact reach_trans hrv h
  have hxc : x ∈ c := (hchar x).mpr hx
  have hyc : y ∈ c := (hchar y).mpr hy
  have hcf : c ∈ (findConnectedComponents (buildGraph documents sims t)).filter
      (fun comp => 1 < comp.length) := by
    rw [List.mem_filter]
    exact ⟨hc, by simpa using two_mem_one_lt_length hxc hyc hxy⟩
  obtain ⟨cl, hclmem, hcldocs⟩ := createClusters_mem_of_component hcf
  refine ⟨cl, hclmem, ?_⟩
  intro z
  rw [hcldocs]
  exact hchar z

/-- Mapping an id-projection over an enumerated, mapped list yields the
dense range when the projection returns the enumeration index. -/
theorem map_enum_fst_of {α : Type _} {β : Type _} (L : List α) (f : Nat × α → β)
    (pid : β → Nat) (h : ∀ p, pid (f p) = p.1) :
    (L.enum.map f).map pid = List.range (L.enum.map f).length := by
  rw [List.map_map, List.length_map, List.enum_length]
  have h2 : (pid ∘ f) = Prod.fst := funext h
  rw [h2, List.enum_map_fst]

/-- Cluster ids are the dense integers `0, 1, 2, …` in discovery
order. -/
theorem createClusters_ids (documents : List Document)
    (sims : List SimilarityResult) (t : ℚ) :
    (createClusters documents sims t).map Cluster.id =
      List.range (createClusters documents sims t).length := by
  simp only [createClusters]
  exact map_enum_fst_of _ _ _ (fun p => rfl)

/-- Distinct clusters never share a document identifier. -/
theorem createClusters_pairwise_docs (documents : List Document)
    (sims : List SimilarityResult) (t : ℚ) :
    (createClusters documents sims t).Pairwise
      (fun c1 c2 => ∀ x ∈ c1.documents, x ∉ c2.documents) := by
  have hwf := buildGraph_wf documents sims t
  obtain ⟨-, P, -⟩ := findConnectedComponents_spec _ hwf
  have hPf : ((findConnectedComponents (buildGraph documents sims t)).filter
      (fun comp => 1 < comp.length)).Pairwise (fun c1 c2 => ∀ x ∈ c1, x ∉ c2) :=
    List.Pairwise.sublist (List.filter_sublist _) P
  rw [← List.enum_map_snd ((findConnectedComponents (buildGraph documents sims t)).filter
      (fun comp => 1 < comp.length))] at hPf
  have henum := List.pairwise_map.mp hPf
  simp only [createClusters]
  rw [List.pairwise_map]
  exact henum.imp (fun h => h)

/-- All elements of a word list except possibly the last are non-empty.
The fields produced by `split(/\s+/)` after the first one satisfy this:
only a trailing separator can contribute another empty field. -/
def TailOk : List JStr → Prop
  | [] => True
  | [_] => True
  | w :: rest => w ≠ [] ∧ TailOk rest

theorem tailOk_cons {w : JStr} {L : List JStr} (hw : w ≠ []) (hL : TailOk L) :
    TailOk (w :: L) := by
  cases L with
  | nil => trivial
  | cons x rest => exact ⟨hw, hL⟩

/-- Structure of the JS whitespace split: the splitter never produces an
empty field in the interior of its output. -/
theorem splitWs_structure : ∀ N l, List.length l ≤ N →
    ((∀ cur : JStr, ∃ w L, splitWsGo l cur = w :: L ∧ TailOk L ∧
        (cur ≠ [] → w ≠ [])) ∧
      TailOk (splitWsSkip l)) := by
  intro N
  induction N with
  | zero =>
    intro l hl
    have : l = [] := by
      cases l <;> simp_all
    subst this
    constructor
    · intro cur
      exact ⟨cur.reverse, [], rfl, trivial, fun h => by simpa using h⟩
    · trivial
  | succ N ih =>
    intro l hl
    cases l with
    | nil =>
      constructor
      · intro cur
        exact ⟨cur.reverse, [], rfl, trivial, fun h => by simpa using h⟩
      · trivial
    | cons c rest =>
      have hrest := ih rest (by simp at hl; omega)
      constructor
      · intro cur
        by_cases hws : isWs c
        · refine ⟨cur.reverse, splitWsSkip rest, ?_, hrest.2, ?_⟩
          · simp [splitWsGo, hws]
          · intro h
            simpa using h
        · obtain ⟨w, L, heq, htail, hne⟩ := hrest.1 (c :: cur)
          refine ⟨w, L, ?_, htail, fun _ => hne (by simp)⟩
          simp [splitWsGo, hws, heq]
      · by_cases hws : isWs c
        · show TailOk (splitWsSkip (c :: rest))
          simp only [splitWsSkip, hws, if_true]
          exact hrest.2
        · show TailOk (splitWsSkip (c :: rest))
          simp only [splitWsSkip, hws, if_false]
          obtain ⟨w, L, heq, htail, hne⟩ := hrest.1 [c]
          rw [heq]
          exact tailOk_cons (hne (by simp)) htail

theorem splitWs_interior (s : JStr) :
    ∃ w L, splitWs s = w :: L ∧ TailOk L := by
  obtain ⟨w, L, heq, htail, _⟩ :=
    (splitWs_structure s.length s le_rfl).1 []
  exact ⟨w, L, heq, htail⟩

theorem tailOk_count (L : List JStr) (h : TailOk L) :
    List.length L ≤ (L.filter (fun w => w ≠ [])).length + 1 := by
  induction L with
  | nil => simp
  | cons w rest ih =>
    cases rest with
    | nil => simp [List.filter]
    | cons x rest' =>
      obtain ⟨hw, htail⟩ := h
      have := ih htail
      rw [List.filter_cons, if_pos (by simpa using hw)]
      simp only [List.length_cons] at this ⊢
      omega

/-- Length of the split is at most the non-empty word count plus 2 (one
possible empty field at each end). -/
theorem splitWs_length_le (content : JStr) :
    (splitWs content).length ≤ wordCount content + 2 := by
  obtain ⟨w, L, heq, htail⟩ := splitWs_interior content
  have h1 := tailOk_count L htail
  have h2 : (L.filter (fun w => w ≠ [])).length ≤
      ((w :: L).filter (fun w => w ≠ [])).length := by
    rw [List.filter_cons]
    split
    · simp
    · exact le_rfl
  unfold wordCount
  rw [heq]
  simp only [List.length_cons]
  omega

theorem commonCount_le_left (d1 d2 : Document) :
    commonCount d1 d2 ≤ wordCount d1.content := by
  have h1 : commonCount d1 d2 ≤ (createShingles d1.content 3).dedup.length :=
    List.length_filter_le _ _
  have h2 : (createShingles d1.content 3).dedup.length ≤
      (createShingles d1.content 3).length :=
    (List.dedup_sublist _).length_le
  have h3 : (createShingles d1.content 3).length =
      (splitWs d1.content).length + 1 - 3 := by
    simp [createShingles]
  have h4 := splitWs_length_le d1.content
  omega

theorem commonCount_le_right (d1 d2 : Document) :
    commonCount d1 d2 ≤ wordCount d2.content := by
  have h1 : commonCount d1 d2 =
      ((createShingles d1.content 3).toFinset ∩
        (createShingles d2.content 3).toFinset).card :=
    interCard_eq _ _
  have h2 : ((createShingles d1.content 3).toFinset ∩
      (createShingles d2.content 3).toFinset).card ≤
      (createShingles d2.content 3).toFinset.card :=
    Finset.card_le_card Finset.inter_subset_right
  have h3 : (createShingles d2.content 3).toFinset.card =
      (createShingles d2.content 3).dedup.length :=
    List.card_toFinset _
  have h4 : (createShingles d2.content 3).dedup.length ≤
      (createShingles d2.content 3).length :=
    (List.dedup_sublist _).length_le
  have h5 : (createShingles d2.content 3).length =
      (splitWs d2.content).length + 1 - 3 := by
    simp [createShingles]
  have h6 := splitWs_length_le d2.content
  omega

/-- The key bound: the number of shared distinct 3-shingles never
exceeds the floored average word count. -/
theorem commonCount_le_avgWords (d1 d2 : Document) :
    commonCount d1 d2 ≤ avgWords d1 d2 := by
  have h1 := commonCount_le_left d1 d2
  have h2 := commonCount_le_right d1 d2
  unfold avgWords
  omega

theorem pairResult_similarity (d1 d2 : Document) :
    (pairResult d1 d2).similarity =
      (commonCount d1 d2 : ℚ) / (avgWords d1 d2 : ℚ) * 100 := rfl

/-- The primary metric is bounded by 100 on every input. -/
theorem similarity_le_100 (d1 d2 : Document) :
    (pairResult d1 d2).similarity ≤ 100 := by
  rw [pairResult_similarity]
  have hc := commonCount_le_avgWords d1 d2
  have havg : (1 : ℚ) ≤ (avgWords d1 d2 : ℚ) := by
    have : 1 ≤ avgWords d1 d2 := le_max_left 1 _
    exact_mod_cast this
  have h1 : (commonCount d1 d2 : ℚ) / (avgWords d1 d2 : ℚ) ≤ 1 := by
    rw [div_le_one (by linarith)]
    exact_mod_cast hc
  calc (commonCount d1 d2 : ℚ) / (avgWords d1 d2 : ℚ) * 100 ≤ 1 * 100 :=
      mul_le_mul_of_nonneg_right h1 (by norm_num)
    _ = 100 := by norm_num

/-- Every pair `i < j` contributes its `pairResult` to the output of
`computeAllSimilarities`. -/
theorem pairResult_mem (docs : List Document) (i j : Nat) (h1 : i < j)
    (h2 : j < docs.length) :
    pairResult (docs.getD i default) (docs.getD j default) ∈
      computeAllSimilarities docs := by
  unfold computeAllSimilarities
  rw [List.mem_flatMap]
  refine ⟨i, List.mem_range.mpr (by omega), ?_⟩
  rw [List.mem_map]
  refine ⟨j, ?_, rfl⟩
  rw [List.mem_iff_getElem]
  refine ⟨j - (i + 1), ?_, ?_⟩
  · simp [List.length_drop, List.length_range]
    omega
  · rw [List.getElem_drop, List.getElem_range]
    omega

/-- Conversely, every emitted result is the `pairResult` of some pair
`i < j`. -/
theorem mem_computeAllSimilarities {docs : List Document}
    {r : SimilarityResult} (hr : r ∈ computeAllSimilarities docs) :
    ∃ i j, i < j ∧ j < docs.length ∧
      r = pairResult (docs.getD i default) (docs.getD j default) := by
  unfold computeAllSimilarities at hr
  rw [List.mem_flatMap] at hr
  obtain ⟨i, hi, hr⟩ := hr
  rw [List.mem_map] at hr
  obtain ⟨j, hj, hr⟩ := hr
  rw [List.mem_iff_getElem] at hj
  obtain ⟨k, hk, hjk⟩ := hj
  rw [List.getElem_drop, List.getElem_range] at hjk
  rw [List.mem_range] at hi
  simp only [List.length_drop, List.length_range] at hk
  exact ⟨i, j, by omega, by omega, hr.symm⟩

/-- The emitted `compositeScore` field is 100 times the spec's
composite rule. -/
theorem pairResult_compositeScore (d1 d2 : Document) :
    (pairResult d1 d2).compositeScore = 100 * compositeSpec d1 d2 := by
  simp only [pairResult, compositeSpec]
  exact mul_comm _ _

/-- Both scores computed per pair are symmetric in the two documents. -/
theorem pairResult_symm (d1 d2 : Document) :
    (pairResult d1 d2).matchMetric = (pairResult d2 d1).matchMetric ∧
      (pairResult d1 d2).compositeScore = (pairResult d2 d1).compositeScore := by
  have hja : jaccardSimilarity (createShingles d1.content 3) (createShingles d2.content 3) =
      jaccardSimilarity (createShingles d2.content 3) (createShingles d1.content 3) :=
    jaccardSimilarity_comm _ _
  have hcc : ((createShingles d1.content 3).dedup.filter
        (fun sh => sh ∈ createShingles d2.content 3)).length =
      ((createShingles d2.content 3).dedup.filter
        (fun sh => sh ∈ createShingles d1.content 3)).length :=
    interCard_comm _ _
  have havg : max 1 ((wordCount d1.content + wordCount d2.content) / 2) =
      max 1 ((wordCount d2.content + wordCount d1.content) / 2) := by
    rw [Nat.add_comm]
  have hed : editDistance (jsSubstring d1.content 0 500) (jsSubstring d2.content 0 500) =
      editDistance (jsSubstring d2.content 0 500) (jsSubstring d1.content 0 500) :=
    editDistance_symm _ _
  have hml : max (jsSubstring d1.content 0 500).length (jsSubstring d2.content 0 500).length =
      max (jsSubstring d2.content 0 500).length (jsSubstring d1.content 0 500).length :=
    Nat.max_comm _ _
  have hlcs : (longestCommonSubstring d1.content d2.content 800).length =
      (longestCommonSubstring d2.content d1.content 800).length :=
    longestCommonSubstring_length_comm _ _ _
  have hden : min d1.content.length (min d2.content.length 800) =
      min d2.content.length (min d1.content.length 800) := by omega
  constructor
  · simp only [pairResult]
    rw [hcc, havg]
  · simp only [pairResult]
    rw [hja, hed, hml, hlcs, hden]

/-- The search loop, entered with the correct hash of window `i`, returns
exactly the positions (within its remaining range) whose window equals
the pattern. -/
theorem rkLoop_spec (t p : JStr) (hm : 1 ≤ p.length) (hmn : p.length ≤ t.length) :
    ∀ steps i, i + steps ≤ t.length - p.length + 1 →
      rkLoop t p p.length (rabinKarpHash p)
          (some ((256 ^ (p.length - 1) : Int) % 101))
          steps i (some (rabinKarpHash (jsSubstring t i (i + p.length)))) =
        (List.range' i steps).filter
          (fun k => jsSubstring t k (k + p.length) = p) := by
  intro steps
  induction steps with
  | zero =>
    intro i _
    simp [rkLoop]
  | succ steps ih =>
    intro i hbound
    rw [rkLoop]
    have hrs : List.range' i (steps + 1) = i :: List.range' (i + 1) steps :=
      List.range'_succ i steps 1
    rw [hrs, List.filter_cons]
    have htail : rkLoop t p p.length (rabinKarpHash p)
        (some ((256 ^ (p.length - 1) : Int) % 101)) steps (i + 1)
        (if i < t.length - p.length then
          rollHash t (some ((256 ^ (p.length - 1) : Int) % 101)) p.length
            (some (rabinKarpHash (jsSubstring t i (i + p.length)))) i
         else some (rabinKarpHash (jsSubstring t i (i + p.length)))) =
        (List.range' (i + 1) steps).filter
          (fun k => jsSubstring t k (k + p.length) = p) := by
      cases steps with
      | zero => simp [rkLoop]
      | succ steps' =>
        have hlt : i < t.length - p.length := by omega
        rw [if_pos hlt, rollHash_correct t p.length hm i (by omega)]
        exact ih (i + 1) (by omega)
    rw [htail]
    by_cases hsp : jsSubstring t i (i + p.length) = p
    · have hph : (some (rabinKarpHash p) : Option Int) =
          some (rabinKarpHash (jsSubstring t i (i + p.length))) := by
        rw [hsp]
      rw [if_pos hph, if_pos hsp]
      simp [hsp]
    · have hcond : (if (some (rabinKarpHash p) : Option Int) =
            some (rabinKarpHash (jsSubstring t i (i + p.length)))
          then (if jsSubstring t i (i + p.length) = p then [i] else []) else []) =
          ([] : List Nat) := by
        simp [hsp]
      rw [hcond]
      simp [hsp]

/-- Every position the loop reports passes the full substring check. -/
theorem rkLoop_sound (t p : JStr) (m : Nat) (ph : Int) (h : Option Int) :
    ∀ steps i th k, k ∈ rkLoop t p m ph h steps i th →
      jsSubstring t k (k + m) = p := by
  intro steps
  induction steps with
  | zero =>
    intro i th k hk
    simp [rkLoop] at hk
  | succ steps ih =>
    intro i th k hk
    rw [rkLoop] at hk
    rcases List.mem_append.mp hk with h1 | h2
    · split at h1
      · split at h1
        · rename_i hslice
          simp only [List.mem_singleton] at h1
          subst h1
          exact hslice
        · simp at h1
      · simp at h1
    · exact ih (i + 1) _ k h2

/-- A `NaN` text hash rolls to `NaN` again, whatever `h` is. -/
theorem rollHash_none_th (t : JStr) (h : Option Int) (m i : Nat) :
    rollHash t h m none i = none := by
  cases h <;> rfl

/-- With a `NaN` multiplier `h`, any roll yields `NaN`. -/
theorem rollHash_none_h (t : JStr) (m : Nat) (th : Option Int) (i : Nat) :
    rollHash t none m th i = none := by
  cases th <;> rfl

/-- Once the text hash is `NaN` the loop reports nothing further: the
hash comparison fails at every remaining position. -/
theorem rkLoop_th_none (t p : JStr) (m : Nat) (ph : Int) (h : Option Int) :
    ∀ steps i, rkLoop t p m ph h steps i none = [] := by
  intro steps
  induction steps with
  | zero =>
    intro i
    rfl
  | succ steps ih =>
    intro i
    simp only [rkLoop]
    rw [rollHash_none_th, if_neg (by simp : ¬ (some ph : Option Int) = none),
      ite_self, ih]
    rfl

/-- With a `NaN` multiplier the loop can only report its starting
position: the first roll already degrades the text hash to `NaN`. -/
theorem rkLoop_h_none_mem (t p : JStr) (m : Nat) (ph : Int) (steps i : Nat)
    (th : Option Int) (hsi : steps + i = t.length - m) :
    ∀ j ∈ rkLoop t p m ph none (steps + 1) i th, j = i := by
  intro j hj
  simp only [rkLoop] at hj
  rcases List.mem_append.mp hj with hj | hj
  · split at hj
    · split at hj
      · simpa using hj
      · simp at hj
    · simp at hj
  · by_cases hlt : i < t.length - m
    · rw [if_pos hlt, rollHash_none_h, rkLoop_th_none] at hj
      simp at hj
    · have hs0 : steps = 0 := by omega
      rw [hs0] at hj
      simp [rkLoop] at hj

/-- For patterns of at least 129 code units, `Math.pow(256, m-1)`
overflows to `Infinity`, `h` is `NaN`, the rolled hash is `NaN` from
position 1 on, and the search can only ever report position 0. -/
theorem rabinKarpSearch_overflow (t p : JStr) (hp : 129 ≤ p.length) :
    ∀ j ∈ rabinKarpSearch t p, j = 0 := by
  intro j hj
  unfold rabinKarpSearch at hj
  split at hj
  · simp at hj
  · have hpow : jsPow256Mod101 (p.length - 1) = none := by
      unfold jsPow256Mod101
      rw [if_neg]
      omega
    rw [hpow] at hj
    exact rkLoop_h_none_mem t p p.length (rabinKarpHash p)
      (t.length - p.length) 0 _ rfl j hj

/-- `rabinKarpSearch` returns exactly the positions where the pattern
occurs, for a non-empty pattern short enough (at most 128 code units)
that every JS hash value is computed exactly. -/
theorem rabinKarpSearch_eq_filter (t p : JStr) (hp : p ≠ [])
    (hlen : p.length ≤ 128) :
    rabinKarpSearch t p =
      (List.range (t.length - p.length + 1)).filter
        (fun k => jsSubstring t k (k + p.length) = p) := by
  have hm : 1 ≤ p.length := by
    cases p with
    | nil => simp at hp
    | cons _ _ => simp
  unfold rabinKarpSearch
  by_cases hgt : p.length > t.length
  · rw [if_pos hgt]
    have h0 : t.length - p.length + 1 = 1 := by omega
    rw [h0]
    have hne : jsSubstring t 0 p.length ≠ p := by
      intro he
      have := congrArg List.length he
      simp [jsSubstring] at this
      omega
    have hr1 : List.range 1 = [0] := rfl
    rw [hr1]
    simp [hne]
  · rw [if_neg hgt]
    have hpow : jsPow256Mod101 (p.length - 1) =
        some ((256 ^ (p.length - 1) : Int) % 101) := by
      unfold jsPow256Mod101
      rw [if_pos]
      omega
    rw [hpow]
    have hmn : p.length ≤ t.length := by omega
    have := rkLoop_spec t p hm hmn (t.length - p.length + 1) 0 (by omega)
    simpa [List.range_eq_range'] using this

end Plag

/-- C4 (counterexample): the claim asserts that on the empty text the
result is the empty sequence for every `k ≥ 1` (the empty text having
zero words); but the code splits `""` into `[""]`, so for `k = 1` it
emits one (empty) shingle. -/
theorem C4_counterexample :
    Plag.wordCount (Plag.str "") = 0 ∧
      Plag.createShingles (Plag.str "") 1 = [Plag.str ""] ∧
      Plag.createShingles (Plag.str "") 1 ≠ [] := by
  decide

/-- C4 (amended): for every text and every `k ≥ 1`, `createShingles`
returns exactly the left-to-right `k`-word windows (joined by single
spaces) of the JS split `text.split(/\s+/)` — which contains an empty
field at the start/end when the text begins/ends with whitespace and is
`[""]` for the empty text — and the number of shingles is
`max(0, L - k + 1)` where `L` is the length of that split (so the result
is empty exactly when the split has fewer than `k` fields; for the empty
text and `k = 1` it is the single empty shingle). -/
theorem C4_shingle_windows (t : Plag.JStr) (k : Nat) (hk : 1 ≤ k) :
    Plag.createShingles t k = Plag.windowsSpec k (Plag.splitWs t) ∧
      ((Plag.createShingles t k).length : ℤ) =
        max 0 (((Plag.splitWs t).length : ℤ) - k + 1) := by
  refine ⟨Plag.createShingles_eq_windowsSpec t k hk, ?_⟩
  show (((List.range ((Plag.splitWs t).length + 1 - k)).map _).length : ℤ) = _
  rw [List.length_map, List.length_range]
  omega

/-- C9: `editDistance` satisfies the Levenshtein metric laws:
`editDistance(s, s) = 0`, `editDistance("", s) = len(s)`, and the
triangle inequality for arbitrary triples. -/
theorem C9_editDistance_metric :
    (∀ s : Plag.JStr, Plag.editDistance s s = 0) ∧
      (∀ s : Plag.JStr, Plag.editDistance [] s = s.length) ∧
      (∀ a b c : Plag.JStr,
        Plag.editDistance a c ≤ Plag.editDistance a b + Plag.editDistance b c) := by
  refine ⟨Plag.editDistance_self, ?_, Plag.editDistance_triangle⟩
  intro s
  rw [Plag.editDistance_eq_edRec]
  simp [Plag.edRec]

/-- C4 (witness): the amended theorem applied at `"a b c"`, `k = 2`. -/
theorem C4_witness :
    Plag.createShingles (Plag.str "a b c") 2 =
        Plag.windowsSpec 2 (Plag.splitWs (Plag.str "a b c")) ∧
      ((Plag.createShingles (Plag.str "a b c") 2).length : ℤ) =
        max 0 (((Plag.splitWs (Plag.str "a b c")).length : ℤ) - 2 + 1) :=
  C4_shingle_windows (Plag.str "a b c") 2 (by decide)

/-- C8: `longestCommonSubstring(a, b, cap)` returns a string of length at
most `min(len(a), len(b), cap)` which occurs as a contiguous substring of
both inputs truncated to their first `cap` characters, and is empty when
the truncated inputs share no character. -/
theorem C8_lcs_substring (a b : Plag.JStr) (cap : Nat) :
    (Plag.longestCommonSubstring a b cap).length ≤
        min a.length (min b.length cap) ∧
      Plag.longestCommonSubstring a b cap <:+: a.take cap ∧
      Plag.longestCommonSubstring a b cap <:+: b.take cap ∧
      ((∀ c ∈ a.take cap, c ∉ b.take cap) →
        Plag.longestCommonSubstring a b cap = []) := by
  have hinv := Plag.lcsScan_inv (a.take cap) (b.take cap)
  obtain ⟨hle, hei, j, hmlj, hjn, hslice⟩ := hinv
  have hr : Plag.longestCommonSubstring a b cap =
      ((a.take cap).take (Plag.lcsScan (a.take cap) (b.take cap)).2).drop
        ((Plag.lcsScan (a.take cap) (b.take cap)).2 -
          (Plag.lcsScan (a.take cap) (b.take cap)).1) := rfl
  set ml := (Plag.lcsScan (a.take cap) (b.take cap)).1 with hml
  set ei := (Plag.lcsScan (a.take cap) (b.take cap)).2 with heidef
  have hlen1 : (a.take cap).length = min cap a.length := List.length_take cap a
  have hlen2 : (b.take cap).length = min cap b.length := List.length_take cap b
  have hrlen : (Plag.longestCommonSubstring a b cap).length = ml := by
    rw [hr, List.length_drop, List.length_take]
    omega
  have hinf1 : Plag.longestCommonSubstring a b cap <:+: a.take cap := by
    rw [hr]
    refine ⟨((a.take cap).take ei).take (ei - ml), (a.take cap).drop ei, ?_⟩
    rw [List.take_append_drop (ei - ml) ((a.take cap).take ei)]
    exact List.take_append_drop ei (a.take cap)
  have hinf2 : Plag.longestCommonSubstring a b cap <:+: b.take cap := by
    have hr2 : Plag.longestCommonSubstring a b cap =
        ((b.take cap).take j).drop (j - ml) := by rw [hr, hslice]
    rw [hr2]
    refine ⟨((b.take cap).take j).take (j - ml), (b.take cap).drop j, ?_⟩
    rw [List.take_append_drop (j - ml) ((b.take cap).take j)]
    exact List.take_append_drop j (b.take cap)
  refine ⟨by omega, hinf1, hinf2, ?_⟩
  intro hdisj
  rcases List.eq_nil_or_concat (Plag.longestCommonSubstring a b cap) with hnil | hne
  · exact hnil
  · obtain ⟨l, x, hx⟩ := hne
    have hxmem : x ∈ Plag.longestCommonSubstring a b cap := by
      rw [hx]; simp
    exact absurd (hinf2.subset hxmem) (hdisj x (hinf1.subset hxmem))

/-- C8 (witness): the `no shared character` branch of the theorem at
concrete inputs `"ab"`, `"cd"`, cap 10. -/
theorem C8_witness :
    Plag.longestCommonSubstring (Plag.str "ab") (Plag.str "cd") 10 = [] :=
  (C8_lcs_substring (Plag.str "ab") (Plag.str "cd") 10).2.2.2 (by decide)

set_option maxRecDepth 8000 in
/-- C3 (counterexample): completeness fails for long patterns.  In JS,
`Math.pow(256, m-1)` overflows to `Infinity` once the pattern has
`m ≥ 129` code units, `Infinity % 101` is `NaN`, and the rolled text
hash stays `NaN` from position 1 on, so every occurrence past position
0 is missed: on text `'a' × 130` and pattern `'a' × 129` the search
returns `[0]`, not `[0, 1]`. -/
theorem C3_counterexample :
    ¬ ∀ (t p : Plag.JStr), p ≠ [] →
        Plag.rabinKarpSearch t p =
          (List.range (t.length - p.length + 1)).filter
            (fun k => Plag.jsSubstring t k (k + p.length) = p) := by
  intro h
  exact absurd (h (List.replicate 130 97) (List.replicate 129 97) (by decide))
    (by decide)

/-- C3 (amended): for every text and non-empty pattern of at most 128
code units — the range in which JS computes `Math.pow(256, m-1)`, and
hence every hash, exactly — `rabinKarpSearch` returns exactly the start
offsets of all occurrences of the pattern, in increasing order, and in
particular the empty list when the pattern is longer than the text.
Beyond 128 code units the multiplier and then the rolled hashes are
`NaN`, and only offset 0 can ever be reported (see the
counterexample). -/
theorem C3_rabinKarp_exact (t p : Plag.JStr) (hp : p ≠ [])
    (hlen : p.length ≤ 128) :
    Plag.rabinKarpSearch t p =
        (List.range (t.length - p.length + 1)).filter
          (fun k => Plag.jsSubstring t k (k + p.length) = p) ∧
      List.Sorted (· < ·) (Plag.rabinKarpSearch t p) ∧
      (t.length < p.length → Plag.rabinKarpSearch t p = []) := by
  refine ⟨Plag.rabinKarpSearch_eq_filter t p hp hlen, ?_, ?_⟩
  · rw [Plag.rabinKarpSearch_eq_filter t p hp hlen]
    exact List.Pairwise.sublist (List.filter_sublist _) (List.pairwise_lt_range _)
  · intro hlt
    have : p.length > t.length := hlt
    simp [Plag.rabinKarpSearch, this]

/-- C3 (witness): the amended theorem applied at text `"abcab"`, pattern
`"ab"` (occurrences at 0 and 3). -/
theorem C3_witness :
    (Plag.rabinKarpSearch (Plag.str "abcab") (Plag.str "ab") =
        (List.range ((Plag.str "abcab").length - (Plag.str "ab").length + 1)).filter
          (fun k => Plag.jsSubstring (Plag.str "abcab") k
            (k + (Plag.str "ab").length) = Plag.str "ab") ∧
      List.Sorted (· < ·) (Plag.rabinKarpSearch (Plag.str "abcab") (Plag.str "ab")) ∧
      ((Plag.str "abcab").length < (Plag.str "ab").length →
        Plag.rabinKarpSearch (Plag.str "abcab") (Plag.str "ab") = [])) :=
  C3_rabinKarp_exact (Plag.str "abcab") (Plag.str "ab") (by decide) (by decide)

/-- C10: soundness of `rabinKarpSearch`: every reported index is a true
occurrence — the substring of the text at that offset equals the pattern
— regardless of how the rolling hash behaves, because every hash match is
confirmed by a full substring-equality check. -/
theorem C10_rabinKarp_sound (t p : Plag.JStr) (i : Nat)
    (hi : i ∈ Plag.rabinKarpSearch t p) :
    Plag.jsSubstring t i (i + p.length) = p := by
  unfold Plag.rabinKarpSearch at hi
  split at hi
  · simp at hi
  · exact Plag.rkLoop_sound t p p.length _ _ _ 0 _ i hi

/-- C10 (witness): the theorem applied at text `"aba"`, pattern `"a"`,
reported index 0. -/
theorem C10_witness :
    Plag.jsSubstring (Plag.str "aba") 0 (0 + (Plag.str "a").length) =
      Plag.str "a" :=
  C10_rabinKarp_sound (Plag.str "aba") (Plag.str "a") 0 (by decide)

/-- C5: every similarity component is symmetric in the two documents:
`jaccardSimilarity(s1, s2) = jaccardSimilarity(s2, s1)` for all shingle
lists, and for every pair of documents the primary `matchMetric` (also
the `similarity` field) and the `compositeScore` computed by
`computeAllSimilarities` are unchanged when the pair is swapped. -/
theorem C5_similarity_symmetric :
    (∀ s1 s2 : List Plag.JStr,
        Plag.jaccardSimilarity s1 s2 = Plag.jaccardSimilarity s2 s1) ∧
      ∀ A B : Plag.Document, ∃ r r' : Plag.SimilarityResult,
        Plag.computeAllSimilarities [A, B] = [r] ∧
          Plag.computeAllSimilarities [B, A] = [r'] ∧
          r.matchMetric = r'.matchMetric ∧
          r.similarity = r'.similarity ∧
          r.compositeScore = r'.compositeScore := by
  refine ⟨Plag.jaccardSimilarity_comm, ?_⟩
  intro A B
  refine ⟨Plag.pairResult A B, Plag.pairResult B A, rfl, rfl, ?_, ?_, ?_⟩
  · exact (Plag.pairResult_symm A B).1
  · exact (Plag.pairResult_symm A B).1
  · exact (Plag.pairResult_symm A B).2

/-- C7 (counterexample): the claim says the reported `compositeScore`
field *equals* the Jaccard similarity in the default branch, but the code
pushes `compositeScore * 100`.  For two documents with Jaccard 1/9
(≤ 0.15, so the default branch applies) the reported field is 100/9, not
1/9. -/
theorem C7_counterexample :
    Plag.computeAllSimilarities
        [⟨Plag.str "a1", Plag.str "A", Plag.str "p q r"⟩,
         ⟨Plag.str "b1", Plag.str "B", Plag.str "p q r s t u v w x y z"⟩] =
      [Plag.pairResult
        ⟨Plag.str "a1", Plag.str "A", Plag.str "p q r"⟩
        ⟨Plag.str "b1", Plag.str "B", Plag.str "p q r s t u v w x y z"⟩] ∧
    Plag.jaccardSimilarity (Plag.createShingles (Plag.str "p q r") 3)
        (Plag.createShingles (Plag.str "p q r s t u v w x y z") 3) = 1 / 9 ∧
    (Plag.pairResult
        ⟨Plag.str "a1", Plag.str "A", Plag.str "p q r"⟩
        ⟨Plag.str "b1", Plag.str "B", Plag.str "p q r s t u v w x y z"⟩).compositeScore = 100 / 9 ∧
    (Plag.pairResult
        ⟨Plag.str "a1", Plag.str "A", Plag.str "p q r"⟩
        ⟨Plag.str "b1", Plag.str "B", Plag.str "p q r s t u v w x y z"⟩).compositeScore ≠
      Plag.jaccardSimilarity (Plag.createShingles (Plag.str "p q r") 3)
        (Plag.createShingles (Plag.str "p q r s t u v w x y z") 3) := by
  have hI : ((Plag.createShingles (Plag.str "p q r") 3).dedup.filter
      (fun x => x ∈ Plag.createShingles (Plag.str "p q r s t u v w x y z") 3)).length = 1 := by
    decide
  have hU : (((Plag.createShingles (Plag.str "p q r") 3) ++
      (Plag.createShingles (Plag.str "p q r s t u v w x y z") 3)).dedup).length = 9 := by
    decide
  have hjac : Plag.jaccardSimilarity (Plag.createShingles (Plag.str "p q r") 3)
      (Plag.createShingles (Plag.str "p q r s t u v w x y z") 3) = 1 / 9 := by
    simp only [Plag.jaccardSimilarity]
    rw [hI, hU]
    norm_num
  have hspec : Plag.compositeSpec
      ⟨Plag.str "a1", Plag.str "A", Plag.str "p q r"⟩
      ⟨Plag.str "b1", Plag.str "B", Plag.str "p q r s t u v w x y z"⟩ = 1 / 9 := by
    simp only [Plag.compositeSpec]
    rw [if_neg]
    · exact hjac
    · rw [hjac]
      norm_num
  have hcs := Plag.pairResult_compositeScore
    ⟨Plag.str "a1", Plag.str "A", Plag.str "p q r"⟩
    ⟨Plag.str "b1", Plag.str "B", Plag.str "p q r s t u v w x y z"⟩
  rw [hspec] at hcs
  refine ⟨rfl, hjac, ?_, ?_⟩
  · rw [hcs]
    norm_num
  · rw [hcs, hjac]
    norm_num

/-- C7 (amended): the compositeScore field reported by
`computeAllSimilarities` is 100 times the spec's two-branch rule: 100 ×
Jaccard by default, and when Jaccard > 0.15, 100 × the weighted blend
`0.5×Jaccard + 0.3×(1 − editDistance(first 500 chars)/max sample length)
+ 0.2×(800-capped LCS length / min(len1, len2, 800))`. -/
theorem C7_composite_rule (docs : List Plag.Document) (i j : Nat)
    (h1 : i < j) (h2 : j < docs.length) :
    Plag.pairResult (docs.getD i default) (docs.getD j default) ∈
        Plag.computeAllSimilarities docs ∧
      (Plag.pairResult (docs.getD i default) (docs.getD j default)).compositeScore =
        100 * Plag.compositeSpec (docs.getD i default) (docs.getD j default) :=
  ⟨Plag.pairResult_mem docs i j h1 h2, Plag.pairResult_compositeScore _ _⟩

/-- C7 (witness): the amended theorem applied to a concrete two-document
list. -/
theorem C7_witness :
    Plag.pairResult
        (([⟨Plag.str "a1", Plag.str "A", Plag.str "p q r"⟩,
           ⟨Plag.str "b1", Plag.str "B", Plag.str "p q r s t u v w x y z"⟩] :
          List Plag.Document).getD 0 default)
        (([⟨Plag.str "a1", Plag.str "A", Plag.str "p q r"⟩,
           ⟨Plag.str "b1", Plag.str "B", Plag.str "p q r s t u v w x y z"⟩] :
          List Plag.Document).getD 1 default) ∈
      Plag.computeAllSimilarities
        [⟨Plag.str "a1", Plag.str "A", Plag.str "p q r"⟩,
         ⟨Plag.str "b1", Plag.str "B", Plag.str "p q r s t u v w x y z"⟩] ∧
    (Plag.pairResult
        (([⟨Plag.str "a1", Plag.str "A", Plag.str "p q r"⟩,
           ⟨Plag.str "b1", Plag.str "B", Plag.str "p q r s t u v w x y z"⟩] :
          List Plag.Document).getD 0 default)
        (([⟨Plag.str "a1", Plag.str "A", Plag.str "p q r"⟩,
           ⟨Plag.str "b1", Plag.str "B", Plag.str "p q r s t u v w x y z"⟩] :
          List Plag.Document).getD 1 default)).compositeScore =
      100 * Plag.compositeSpec
        (([⟨Plag.str "a1", Plag.str "A", Plag.str "p q r"⟩,
           ⟨Plag.str "b1", Plag.str "B", Plag.str "p q r s t u v w x y z"⟩] :
          List Plag.Document).getD 0 default)
        (([⟨Plag.str "a1", Plag.str "A", Plag.str "p q r"⟩,
           ⟨Plag.str "b1", Plag.str "B", Plag.str "p q r s t u v w x y z"⟩] :
          List Plag.Document).getD 1 default) :=
  C7_composite_rule
    [⟨Plag.str "a1", Plag.str "A", Plag.str "p q r"⟩,
     ⟨Plag.str "b1", Plag.str "B", Plag.str "p q r s t u v w x y z"⟩]
    0 1 (by decide) (by decide)

/-- C1 (counterexample): the claim asserts that the metric exceeds 100 on
some input; in fact it never does.  Distinct 3-shingles of a document are
at most its non-empty word count (the split adds at most two empty
boundary fields and windowing subtracts two), so the shared count never
exceeds `max(1, floor((w1+w2)/2))`.  This proves the negation of the
claim's existential part. -/
theorem C1_counterexample :
    ¬ ∃ (docs : List Plag.Document) (r : Plag.SimilarityResult),
        r ∈ Plag.computeAllSimilarities docs ∧ 100 < r.similarity := by
  rintro ⟨docs, r, hr, hgt⟩
  obtain ⟨i, j, h1, h2, rfl⟩ := Plag.mem_computeAllSimilarities hr
  exact absurd hgt (not_lt.mpr (Plag.similarity_le_100 _ _))

/-- C1 (amended): for every document list and pair of indices `i < j`,
the result that `computeAllSimilarities` emits for the pair has its
primary similarity field equal to `(commonCount / avgWords) * 100`, with
`commonCount` the number of distinct shared 3-shingles and `avgWords =
max(1, floor((w_i + w_j)/2))` over the non-empty whitespace token counts;
the formula has no clamp, but the value never exceeds 100 (the claim's
assertion that it exceeds 100 for some input is false). -/
theorem C1_matchMetric (docs : List Plag.Document) (i j : Nat)
    (h1 : i < j) (h2 : j < docs.length) :
    Plag.pairResult (docs.getD i default) (docs.getD j default) ∈
        Plag.computeAllSimilarities docs ∧
      (Plag.pairResult (docs.getD i default) (docs.getD j default)).similarity =
        (Plag.commonCount (docs.getD i default) (docs.getD j default) : ℚ) /
          (Plag.avgWords (docs.getD i default) (docs.getD j default) : ℚ) * 100 ∧
      (Plag.pairResult (docs.getD i default) (docs.getD j default)).similarity ≤ 100 :=
  ⟨Plag.pairResult_mem docs i j h1 h2, Plag.pairResult_similarity _ _,
    Plag.similarity_le_100 _ _⟩

/-- C1 (witness): the amended theorem applied to two concrete
documents. -/
theorem C1_witness :
    Plag.pairResult
        (([⟨Plag.str "1", Plag.str "d1", Plag.str "the cat sat"⟩,
           ⟨Plag.str "2", Plag.str "d2", Plag.str "the cat sat"⟩] :
          List Plag.Document).getD 0 default)
        (([⟨Plag.str "1", Plag.str "d1", Plag.str "the cat sat"⟩,
           ⟨Plag.str "2", Plag.str "d2", Plag.str "the cat sat"⟩] :
          List Plag.Document).getD 1 default) ∈
      Plag.computeAllSimilarities
        [⟨Plag.str "1", Plag.str "d1", Plag.str "the cat sat"⟩,
         ⟨Plag.str "2", Plag.str "d2", Plag.str "the cat sat"⟩] ∧
    (Plag.pairResult
        (([⟨Plag.str "1", Plag.str "d1", Plag.str "the cat sat"⟩,
           ⟨Plag.str "2", Plag.str "d2", Plag.str "the cat sat"⟩] :
          List Plag.Document).getD 0 default)
        (([⟨Plag.str "1", Plag.str "d1", Plag.str "the cat sat"⟩,
           ⟨Plag.str "2", Plag.str "d2", Plag.str "the cat sat"⟩] :
          List Plag.Document).getD 1 default)).similarity =
      (Plag.commonCount
          (([⟨Plag.str "1", Plag.str "d1", Plag.str "the cat sat"⟩,
             ⟨Plag.str "2", Plag.str "d2", Plag.str "the cat sat"⟩] :
            List Plag.Document).getD 0 default)
          (([⟨Plag.str "1", Plag.str "d1", Plag.str "the cat sat"⟩,
             ⟨Plag.str "2", Plag.str "d2", Plag.str "the cat sat"⟩] :
            List Plag.Document).getD 1 default) : ℚ) /
        (Plag.avgWords
          (([⟨Plag.str "1", Plag.str "d1", Plag.str "the cat sat"⟩,
             ⟨Plag.str "2", Plag.str "d2", Plag.str "the cat sat"⟩] :
            List Plag.Document).getD 0 default)
          (([⟨Plag.str "1", Plag.str "d1", Plag.str "the cat sat"⟩,
             ⟨Plag.str "2", Plag.str "d2", Plag.str "the cat sat"⟩] :
            List Plag.Document).getD 1 default) : ℚ) * 100 ∧
    (Plag.pairResult
        (([⟨Plag.str "1", Plag.str "d1", Plag.str "the cat sat"⟩,
           ⟨Plag.str "2", Plag.str "d2", Plag.str "the cat sat"⟩] :
          List Plag.Document).getD 0 default)
        (([⟨Plag.str "1", Plag.str "d1", Plag.str "the cat sat"⟩,
           ⟨Plag.str "2", Plag.str "d2", Plag.str "the cat sat"⟩] :
          List Plag.Document).getD 1 default)).similarity ≤ 100 :=
  C1_matchMetric
    [⟨Plag.str "1", Plag.str "d1", Plag.str "the cat sat"⟩,
     ⟨Plag.str "2", Plag.str "d2", Plag.str "the cat sat"⟩]
    0 1 (by decide) (by decide)

/-- C2 (counterexample): the claim asserts the cluster count never grows
as the threshold rises; but with four documents chained a–b (90),
b–c (50), c–d (90), threshold 40 yields one cluster {a,b,c,d} while the
higher threshold 60 yields two clusters {a,b} and {c,d}. -/
theorem C2_counterexample :
    ¬ ∀ (documents : List Plag.Document) (sims : List Plag.SimilarityResult)
        (t1 t2 : ℚ), t1 ≤ t2 →
        (Plag.createClusters documents sims t2).length ≤
          (Plag.createClusters documents sims t1).length := by
  intro h
  exact absurd (h Plag.docsW Plag.simsW 40 60 (by decide)) (by decide)

/-- C2 (amended): raising the threshold only refines clusters: for
`t1 ≤ t2`, every cluster returned at threshold `t2` has its documents
contained in some cluster returned at `t1` — but the cluster count can
strictly increase (see the counterexample), so the claim's bound on the
number of clusters is false. -/
theorem C2_threshold_containment (documents : List Plag.Document)
    (sims : List Plag.SimilarityResult) (t1 t2 : ℚ) (ht : t1 ≤ t2) :
    ∀ d2 ∈ (Plag.createClusters documents sims t2).map Plag.Cluster.documents,
      ∃ d1 ∈ (Plag.createClusters documents sims t1).map Plag.Cluster.documents,
        ∀ x ∈ d2, x ∈ d1 := by
  intro d2 hd2
  obtain ⟨c2, hc2, hc2d⟩ := List.mem_map.mp hd2
  subst hc2d
  obtain ⟨hnd, hlen, r, hrv, hchar⟩ :=
    Plag.createClusters_docs_spec documents sims t2 c2 hc2
  obtain ⟨x, y, hx, hy, hxy⟩ := Plag.nodup_two_le_exists hnd hlen
  have hmon := Plag.buildGraph_monotone documents sims ht
  have hrg1 : r ∈ (Plag.buildGraph documents sims t1).verts := hmon.2 r hrv
  obtain ⟨cl, hcl, hclchar⟩ := Plag.createClusters_cover documents sims t1 hrg1 hxy
    (Plag.reach_mono hmon.1 ((hchar x).mp hx))
    (Plag.reach_mono hmon.1 ((hchar y).mp hy))
  refine ⟨cl.documents, List.mem_map_of_mem _ hcl, ?_⟩
  intro z hz
  exact (hclchar z).mpr (Plag.reach_mono hmon.1 ((hchar z).mp hz))

/-- C2 (witness): the amended theorem applied to the four chained
documents at thresholds 40 ≤ 60: the threshold-60 cluster {a, b} is
contained in the single threshold-40 cluster {a, b, c, d}. -/
theorem C2_witness :
    (40 : ℚ) ≤ 60 ∧
      ∃ d1 ∈ (Plag.createClusters Plag.docsW Plag.simsW 40).map
          Plag.Cluster.documents,
        ∀ x ∈ [Plag.str "a", Plag.str "b"], x ∈ d1 :=
  ⟨by decide,
    C2_threshold_containment Plag.docsW Plag.simsW 40 60 (by decide)
      [Plag.str "a", Plag.str "b"] (by decide)⟩

/-- C6: for every document list, similarity list and threshold, the
clusters returned by `createClusters` are pairwise disjoint in their
document identifiers (no identifier occurs in two different clusters),
every cluster carries at least two distinct identifiers, and the cluster
ids are the dense integers 0, 1, 2, … in discovery order. -/
theorem C6_cluster_invariants (documents : List Plag.Document)
    (similarities : List Plag.SimilarityResult) (threshold : ℚ) :
    (Plag.createClusters documents similarities threshold).Pairwise
        (fun c1 c2 => ∀ x ∈ c1.documents, x ∉ c2.documents) ∧
      (∀ cl ∈ Plag.createClusters documents similarities threshold,
        cl.documents.Nodup ∧ 2 ≤ cl.documents.length) ∧
      (Plag.createClusters documents similarities threshold).map Plag.Cluster.id =
        List.range (Plag.createClusters documents similarities threshold).length := by
  refine ⟨Plag.createClusters_pairwise_docs documents similarities threshold, ?_,
    Plag.createClusters_ids documents similarities threshold⟩
  intro cl hcl
  obtain ⟨hnd, hlen, -⟩ :=
    Plag.createClusters_docs_spec documents similarities threshold cl hcl
  exact ⟨hnd, hlen⟩
